import Mathlib

/-!
Verification of the mortgage pricing analysis core (data normalization,
filtering, and aggregation engine).

The JavaScript source is shallowly embedded: JS numbers are modelled as
rationals (`ℚ`) with `Option ℚ` standing for number-or-NaN, JS strings as
`String` viewed through their character lists, and JS `Date` objects by
their observable features (validity, timestamp, `getFullYear`,
`getMonth`).  Builtins (`parseFloat`, `parseInt`, `String.prototype.split`,
`Math.round`, template-literal number formatting) are modelled on the
decimal fragment the data uses.
-/

set_option maxHeartbeats 2000000

namespace MBPrice

/-! ## Character and list utilities (JS string builtins) -/

/-- The characters JS treats as whitespace for trimming (the ASCII ones). -/
def isWS (c : Char) : Bool :=
  c = ' ' ∨ c = '\t' ∨ c = '\n' ∨ c = '\r'

/-- `String.prototype.split` with a one-character separator, on char lists:
`"" → [""]`, and a separator at the boundary yields empty pieces, exactly as
in JS (`"-0.4--0.2".split('-') = ["", "0.4", "", "0.2"]`). -/
def splitOnChar (sep : Char) : List Char → List (List Char)
  | [] => [[]]
  | c :: cs =>
    if c = sep then
      [] :: splitOnChar sep cs
    else
      match splitOnChar sep cs with
      | [] => [[c]]
      | p :: ps => (c :: p) :: ps

/-- JS `s.split('-')` lifted to `String`. -/
def jsSplit (sep : Char) (s : String) : List String :=
  (splitOnChar sep s.data).map String.mk

/-- JS `String.prototype.trim` (ASCII whitespace). -/
def jsTrim (s : String) : String :=
  String.mk ((s.data.dropWhile isWS).reverse.dropWhile isWS |>.reverse)

/-- JS `String.prototype.includes` with a one-character argument. -/
def jsContainsChar (c : Char) (s : String) : Bool :=
  s.data.contains c

/-! ## Decimal digit rendering (JS template-literal formatting of integers) -/

/-- The decimal digit character for `n < 10`. -/
def digitChar (n : ℕ) : Char := Char.ofNat (48 + n)

/-- Big-endian decimal digits of `n`, with explicit structural fuel. -/
def natDigits : ℕ → ℕ → List Char
  | 0, _ => []
  | fuel + 1, n =>
    if n < 10 then [digitChar n]
    else natDigits fuel (n / 10) ++ [digitChar (n % 10)]

/-- Decimal rendering of a natural number. -/
def natToStr (n : ℕ) : String := String.mk (natDigits (n + 1) n)

/-- JS rendering of an integer-valued number by a template literal. -/
def intToStr (i : ℤ) : String :=
  if i < 0 then "-" ++ natToStr (-i).toNat else natToStr i.toNat

/-- Numeric value of a big-endian digit list (accumulator form). -/
def digitsValAux : ℕ → List Char → ℕ
  | acc, [] => acc
  | acc, c :: cs => digitsValAux (acc * 10 + (c.toNat - 48)) cs

/-- Numeric value of a big-endian decimal digit list. -/
def digitsVal (l : List Char) : ℕ := digitsValAux 0 l

/-! ## JS number parsing, on the decimal fragment

`jsParseFloatList` models `parseFloat` on inputs of the form
`[ws] [sign] digits [ . digits ] junk` (no exponents, no `Infinity`):
it returns the value of the longest numeric prefix, or `none` (JS `NaN`)
when there is none.  `jsParseInt` models `parseInt(s)` (base 10) the same
way without the fractional part. -/

/-- Value of a fraction digit list: `digitsVal l / 10 ^ |l|`. -/
def fracVal (l : List Char) : ℚ :=
  (digitsVal l : ℚ) / (10 : ℚ) ^ l.length

/-- Sign and remainder of an optional leading `+`/`-`. -/
def takeSign : List Char → ℚ × List Char
  | '-' :: t => (-1, t)
  | '+' :: t => (1, t)
  | l => (1, l)

/-- `parseFloat` on a character list; `none` models `NaN`. -/
def jsParseFloatList (l₀ : List Char) : Option ℚ :=
  let l := l₀.dropWhile isWS
  let sr := takeSign l
  let intPart := sr.2.takeWhile Char.isDigit
  let rest := sr.2.dropWhile Char.isDigit
  let fracPart :=
    match rest with
    | '.' :: t => t.takeWhile Char.isDigit
    | _ => []
  if intPart = [] ∧ fracPart = [] then none
  else some (sr.1 * ((digitsVal intPart : ℚ) + fracVal fracPart))

/-- JS `parseFloat` on strings. -/
def jsParseFloat (s : String) : Option ℚ := jsParseFloatList s.data

/-- `parseInt(s)` (radix 10) on a character list; `none` models `NaN`. -/
def jsParseIntList (l₀ : List Char) : Option ℤ :=
  let l := l₀.dropWhile isWS
  let neg : Bool := match l with | '-' :: _ => true | _ => false
  let body := match l with | '-' :: t => t | '+' :: t => t | t => t
  let intPart := body.takeWhile Char.isDigit
  if intPart = [] then none
  else some ((if neg then -1 else 1) * (digitsVal intPart : ℤ))

/-- JS `parseInt` on strings. -/
def jsParseInt (s : String) : Option ℤ := jsParseIntList s.data

/-- JS `Math.round`: round half toward positive infinity. -/
def jsRound (q : ℚ) : ℤ := ⌊q + 1 / 2⌋

/-! ## JS values

Enough of the JS value universe for the fields the core reads: `undefined`
and `null`, strings, numbers (`Option ℚ`-free: a NaN field is modelled by
`undef` at the use sites that produce it), and booleans. -/

inductive JSVal where
  | undef : JSVal
  | null : JSVal
  | str : String → JSVal
  | num : ℚ → JSVal
  | boolean : Bool → JSVal
deriving DecidableEq

/-- JS truthiness. -/
def JSVal.truthy : JSVal → Bool
  | .undef => false
  | .null => false
  | .str s => s ≠ ""
  | .num q => q ≠ 0
  | .boolean b => b

/-- `typeof v === 'string'`. -/
def JSVal.isString : JSVal → Bool
  | .str _ => true
  | _ => false

/-- `parseFloat(v)`: JS coerces the argument to a string first; a number
coerces back to itself on the values in scope. -/
def jsParseFloatVal : JSVal → Option ℚ
  | .str s => jsParseFloat s
  | .num q => some q
  | _ => none

/-! ## ColumnMapper.js: `convertMarginBucketToBps` -/

/-- `convertMarginBucketToBps` (ColumnMapper.js).  Non-string or falsy input
returns `"Unknown"`; otherwise the string is split on `'-'`, and only a
two-piece split with both pieces parsing as numbers is converted to the
`"<round(min*100)>-<round(max*100)>"` basis-point form; anything else is
returned unchanged. -/
def convertMarginBucketToBps (v : JSVal) : String :=
  match v with
  | .str s =>
    if s = "" then "Unknown"
    else
      match jsSplit '-' s with
      | [p₁, p₂] =>
        match jsParseFloat p₁, jsParseFloat p₂ with
        | some mn, some mx =>
          intToStr (jsRound (mn * 100)) ++ "-" ++ intToStr (jsRound (mx * 100))
        | _, _ => s
      | _ => s
  | _ => "Unknown"

/-! ## sortUtils.js: `standardizePremiumBand` -/

/-- `standardizePremiumBand` (sortUtils.js).  Empty and `"Unknown"` labels
pass through; the literal `"-0.2-0.0"` is hard-coded to `"-20-0"`; a label
splitting into two parseable pieces with a bound of magnitude below one and
decimal-format evidence (a `'.'`, or a nonzero bound of magnitude below one)
is converted to basis points; everything else passes through. -/
def standardizePremiumBand (band : String) : String :=
  if band = "" ∨ band = "Unknown" then band
  else if band = "-0.2-0.0" then "-20-0"
  else if jsContainsChar '-' band then
    match jsSplit '-' band with
    | [p₁, p₂] =>
      match jsParseFloat p₁, jsParseFloat p₂ with
      | some mn, some mx =>
        if (-1 < mn ∧ mn < 1) ∨ (-1 < mx ∧ mx < 1) then
          if jsContainsChar '.' (jsTrim p₁) ∨ jsContainsChar '.' (jsTrim p₂) ∨
              (mn ≠ 0 ∧ |mn| < 1) ∨ (mx ≠ 0 ∧ |mx| < 1) then
            intToStr (jsRound (mn * 100)) ++ "-" ++ intToStr (jsRound (mx * 100))
          else band
        else band
      | _, _ => band
    | _ => band
  else band

/-! ## List utilities mirroring `Set`/`Map` key collection and `Array.sort` -/

/-- Keys of a JS `Set`/`Map` in insertion order: first occurrences. -/
def dedupFirst {α : Type} [DecidableEq α] : List α → List α
  | [] => []
  | x :: xs => x :: (dedupFirst xs).filter (· ≠ x)

/-- Insert into a sorted list (for the `Array.prototype.sort` model). -/
def insertLe {α : Type} (le : α → α → Bool) (x : α) : List α → List α
  | [] => [x]
  | y :: ys => if le x y then x :: y :: ys else y :: insertLe le x ys

/-- `Array.prototype.sort` with a comparator, modelled as insertion sort
(a sorted permutation; JS leaves the order of comparator-ties unspecified). -/
def sortLe {α : Type} (le : α → α → Bool) : List α → List α
  | [] => []
  | x :: xs => insertLe le x (sortLe le xs)

/-- The band comparator key `parseInt(band.split('-')[0]) || 0` used by the
aggregator when ordering premium bands. -/
def bandSortKey (s : String) : ℤ :=
  ((jsSplit '-' s).headD "" |> jsParseInt).getD 0

/-- Band comparator (`aNum - bNum`) as a `≤` test. -/
def bandLe (a b : String) : Bool := bandSortKey a ≤ bandSortKey b

/-- JS `Number()` on a string: trimmed-empty is `0`, otherwise the whole
string must be a signed decimal numeral; `none` models `NaN`. -/
def jsNumberList (l : List Char) : Option ℚ :=
  let sr := takeSign l
  let ip := sr.2.takeWhile Char.isDigit
  let rest := sr.2.dropWhile Char.isDigit
  match rest with
  | [] => if ip = [] then none else some (sr.1 * (digitsVal ip : ℚ))
  | '.' :: t =>
    if t.dropWhile Char.isDigit = [] ∧ (ip ≠ [] ∨ t ≠ []) then
      some (sr.1 * ((digitsVal ip : ℚ) + fracVal (t.takeWhile Char.isDigit)))
    else none
  | _ => none

/-- JS `Number()` on a string. -/
def jsNumberStr (s : String) : Option ℚ :=
  let t := (s.data.dropWhile isWS).reverse.dropWhile isWS |>.reverse
  if t = [] then some 0 else jsNumberList t

/-- Sort key of the fallback month comparator
(`a.split('-').map(Number)` destructured as year and month). -/
def monthSortKey (s : String) : ℚ × ℚ :=
  let parts := jsSplit '-' s
  (((parts.get? 0).bind jsNumberStr).getD 0, ((parts.get? 1).bind jsNumberStr).getD 0)

/-- Fallback month comparator (`yearA - yearB`, then `monthA - monthB`). -/
def monthLe (a b : String) : Bool :=
  let ka := monthSortKey a
  let kb := monthSortKey b
  ka.1 < kb.1 ∨ (ka.1 = kb.1 ∧ ka.2 ≤ kb.2)

/-- Default string comparator of `Array.prototype.sort` (lexicographic). -/
def strLe (a b : String) : Bool := a ≤ b

/-! ## Dates and records

A JS `Date` is modelled by its observable features: validity, the epoch
timestamp, and `getFullYear` / `getMonth` (0-based).  `Record` fields carry
the values read by the engine after ingestion: `DocumentDate` holds the
already-parsed date value as produced by the `DataManager.processData`
normalization (`none` when the field is absent). -/

inductive DateV where
  | invalid : DateV
  | valid (ts : ℤ) (year : ℤ) (month : ℤ) : DateV
deriving DecidableEq

/-- `a < b` on `Date`s: timestamp comparison; `NaN` comparisons are false. -/
def dateLt (a b : DateV) : Bool :=
  match a, b with
  | .valid ta _ _, .valid tb _ _ => ta < tb
  | _, _ => false

/-- `a <= b` on `Date`s; `NaN` comparisons are false. -/
def dateLe (a b : DateV) : Bool :=
  match a, b with
  | .valid ta _ _, .valid tb _ _ => ta ≤ tb
  | _, _ => false

/-- `setHours(0, 0, 0, 0)`: floor the timestamp to its day (modelled in UTC). -/
def dayStartOf (d : DateV) : DateV :=
  match d with
  | .valid ts y m => .valid (ts - ts.emod 86400000) y m
  | .invalid => .invalid

/-- `setHours(23, 59, 59, 999)`: last millisecond of the day (modelled in UTC). -/
def dayEndOf (d : DateV) : DateV :=
  match d with
  | .valid ts y m => .valid (ts - ts.emod 86400000 + 86399999) y m
  | .invalid => .invalid

/-- A data record, with the source CSV column names as fields. -/
structure Record where
  PremiumBand : Option String := none
  GrossMarginBucket : JSVal := .undef
  DocumentDate : Option DateV := none
  Loan : JSVal := .undef
  LTV : JSVal := .undef
  BaseLender : Option String := none
  PurchaseType : Option String := none
deriving DecidableEq

/-- Truthiness of `record.PremiumBand` (absent or empty is falsy). -/
def premiumBandTruthy (r : Record) : Bool :=
  match r.PremiumBand with
  | some s => s ≠ ""
  | none => false

/-- The in-place normalization both `DataAggregator` passes perform on each
record: `if (!r.PremiumBand && r.GrossMarginBucket) r.PremiumBand =
convertMarginBucketToBps(r.GrossMarginBucket)`. -/
def normalizeRecord (r : Record) : Record :=
  if ¬ premiumBandTruthy r ∧ r.GrossMarginBucket.truthy then
    { r with PremiumBand := some (convertMarginBucketToBps r.GrossMarginBucket) }
  else r

/-- `parseFloat(record.Loan) || 0`. -/
def loanAmountOf (r : Record) : ℚ := (jsParseFloatVal r.Loan).getD 0

/-- `padStart(2, '0')`. -/
def pad2 (s : String) : String :=
  String.mk (List.replicate (2 - s.length) '0') ++ s

/-- The month key `` `${year}-${month + 1 padded}` `` built from the
`getFullYear` / `getMonth` observables. -/
def monthKeyOf (year month0 : ℤ) : String :=
  intToStr year ++ "-" ++ pad2 (intToStr (month0 + 1))

/-- The month key of a record's document date, when present and valid. -/
def monthOf (r : Record) : Option String :=
  match r.DocumentDate with
  | some (.valid _ y m) => some (monthKeyOf y m)
  | _ => none

/-! ## DataAggregator.js: `aggregateByPremiumBandAndMonth` -/

/-- Aggregation options (`sampleSize`, `includeCountMetrics`,
`filterDateRange`); `filterDateRange` is `some` exactly when the source's
`filterDateRange && length === 2 && [0] && [1]` check passes (`Date`
objects are always truthy). -/
structure AggOptions where
  sampleSize : ℕ := 0
  includeCountMetrics : Bool := true
  filterDateRange : Option (DateV × DateV) := none

/-- Head-and-tail sampling of large collections (`slice` of the first and
last `sampleSize / 2` records). -/
def sampleData (data : List Record) (sampleSize : ℕ) : List Record :=
  if 0 < sampleSize ∧ sampleSize < data.length then
    let h := sampleSize / 2
    let dp := data.take h ++ data.drop (data.length - h)
    if sampleSize < dp.length then dp.take sampleSize else dp
  else data

/-- The month key of the calendar month with linear index `t`
(`t = 12 * year + month0`), as `new Date(year, month, 1)` normalizes it
(`/` and `%` on `ℤ` are the flooring Euclidean operations here, matching
the `Date` constructor's normalization of out-of-range months). -/
def monthIdxKey (t : ℤ) : String := monthKeyOf (t / 12) (t % 12)

/-- `getAllMonthsInRange`: every calendar month from the start date's month
to the end date, inclusive; empty when either date is invalid. -/
def getAllMonthsInRange (s e : DateV) : List String :=
  match s, e with
  | .valid _ ys ms, .valid _ ye me =>
    let a := 12 * ys + ms
    let b := 12 * ye + me
    if a ≤ b then
      (List.range (b - a + 1).toNat).map (fun i : ℕ => monthIdxKey (a + (i : ℤ)))
    else []
  | _, _ => []

/-- Pointwise additive update of a one-key accumulator map. -/
def upd1 {M : Type} [Add M] (f : String → M) (k : String) (a : M) : String → M :=
  fun x => if x = k then f x + a else f x

/-- Pointwise additive update of a two-key accumulator map. -/
def upd2 {M : Type} [Add M] (f : String → String → M) (k₁ k₂ : String) (a : M) :
    String → String → M :=
  fun x y => if x = k₁ ∧ y = k₂ then f x y + a else f x y

/-- Mutable accumulators of the aggregation loop (cell, band, month and
grand totals, each for amount and count). -/
structure AggAcc where
  cellAmt : String → String → ℚ
  cellCnt : String → String → ℕ
  bandAmt : String → ℚ
  bandCnt : String → ℕ
  monAmt : String → ℚ
  monCnt : String → ℕ
  ovAmt : ℚ
  ovCnt : ℕ

/-- All-zero accumulators (the source's explicit zero initialization). -/
def initAcc : AggAcc :=
  { cellAmt := fun _ _ => 0
    cellCnt := fun _ _ => 0
    bandAmt := fun _ => 0
    bandCnt := fun _ => 0
    monAmt := fun _ => 0
    monCnt := fun _ => 0
    ovAmt := 0
    ovCnt := 0 }

/-- The guard chain of one aggregation-loop iteration: re-normalize the
record, require a truthy band contained in the band set, then a present and
valid date whose month key is in the month list; on success return the
`(band, month)` cell the record falls into. -/
def aggHit (bands months : List String) (r : Record) : Option (String × String) :=
  match (normalizeRecord r).PremiumBand with
  | none => none
  | some b =>
    if b = "" ∨ b ∉ bands then none
    else
      match r.DocumentDate with
      | none => none
      | some .invalid => none
      | some (.valid _ y m) =>
        if monthKeyOf y m ∈ months then some (b, monthKeyOf y m) else none

/-- One iteration of the aggregation loop: when the record passes the guard
chain, add its loan amount and a count of one to the cell, band, month and
grand totals; otherwise leave the accumulators unchanged. -/
def aggStep (bands months : List String) (acc : AggAcc) (r : Record) : AggAcc :=
  match aggHit bands months r with
  | none => acc
  | some (b, mk) =>
    let amt := loanAmountOf r
    { cellAmt := upd2 acc.cellAmt b mk amt
      cellCnt := upd2 acc.cellCnt b mk 1
      bandAmt := upd1 acc.bandAmt b amt
      bandCnt := upd1 acc.bandCnt b 1
      monAmt := upd1 acc.monAmt mk amt
      monCnt := upd1 acc.monCnt mk 1
      ovAmt := acc.ovAmt + amt
      ovCnt := acc.ovCnt + 1 }

/-- The aggregation result structure (`premiumBands`, `months`, per-cell
`{amount, count, avgLoanSize}`, totals and counts, and the optional derived
metrics).  Cell data and totals are exposed as total maps; keys outside
`premiumBands × months` remain at their zero initialization. -/
structure AggResult where
  premiumBands : List String
  months : List String
  cellAmount : String → String → ℚ
  cellCount : String → String → ℕ
  cellAvgLoanSize : String → String → ℚ
  totalsByPremiumBand : String → ℚ
  totalsByMonth : String → ℚ
  totalsOverall : ℚ
  countsByPremiumBand : String → ℕ
  countsByMonth : String → ℕ
  countsOverall : ℕ
  marketShare : Option (String → String → ℚ)
  growthRate : Option (String → String → ℚ)

/-- The empty result returned for null, malformed, or empty input. -/
def emptyAggResult : AggResult :=
  { premiumBands := []
    months := []
    cellAmount := fun _ _ => 0
    cellCount := fun _ _ => 0
    cellAvgLoanSize := fun _ _ => 0
    totalsByPremiumBand := fun _ => 0
    totalsByMonth := fun _ => 0
    totalsOverall := 0
    countsByPremiumBand := fun _ => 0
    countsByMonth := fun _ => 0
    countsOverall := 0
    marketShare := none
    growthRate := none }

/-- The month-over-month growth metric for band `b` at month `m`: found by
locating `m` as the successor in the ordered month list (months without a
predecessor have no entry, modelled as `0`). -/
def growthAt (months : List String) (cell : String → String → ℚ) (b m : String) : ℚ :=
  match (months.zip months.tail).find? (fun p => p.2 = m) with
  | some p =>
    if 0 < cell b p.1 then (cell b m - cell b p.1) / cell b p.1 * 100 else 0
  | none => 0

/-- The ordered band set of the aggregation: the distinct truthy
`PremiumBand` values of the normalized processed records, in `Map`
insertion order, sorted by the numeric comparator. -/
def aggBands (rs : List Record) (opts : AggOptions) : List String :=
  sortLe bandLe (dedupFirst ((sampleData rs opts.sampleSize).map normalizeRecord
    |>.filterMap (fun r =>
      match r.PremiumBand with
      | some b => if b = "" then none else some b
      | none => none)))

/-- The effective month list: generated from `filterDateRange` when one is
given, otherwise derived from the processed records and sorted. -/
def aggMonths (rs : List Record) (opts : AggOptions) : List String :=
  match opts.filterDateRange with
  | some (s, e) => getAllMonthsInRange s e
  | none =>
    sortLe monthLe (dedupFirst ((sampleData rs opts.sampleSize).filterMap monthOf))

/-- The accumulators after the aggregation loop over the processed records. -/
def aggAccOf (rs : List Record) (opts : AggOptions) : AggAcc :=
  (sampleData rs opts.sampleSize).foldl
    (aggStep (aggBands rs opts) (aggMonths rs opts)) initAcc

/-- The main body of `aggregateByPremiumBandAndMonth` on a nonempty
collection: sample, collect and sort the band set from the normalized
records, build the month list (from `filterDateRange` when given, otherwise
from the data), run the accumulation loop, then derive averages and the
optional market-share and growth metrics. -/
def aggregateCore (rs : List Record) (opts : AggOptions) : AggResult :=
  let bands := aggBands rs opts
  let months := aggMonths rs opts
  let acc := aggAccOf rs opts
  { premiumBands := bands
    months := months
    cellAmount := acc.cellAmt
    cellCount := acc.cellCnt
    cellAvgLoanSize := fun b m =>
      if 0 < acc.cellCnt b m then acc.cellAmt b m / acc.cellCnt b m else 0
    totalsByPremiumBand := acc.bandAmt
    totalsByMonth := acc.monAmt
    totalsOverall := acc.ovAmt
    countsByPremiumBand := acc.bandCnt
    countsByMonth := acc.monCnt
    countsOverall := acc.ovCnt
    marketShare :=
      if opts.includeCountMetrics then
        some (fun b m =>
          if 0 < acc.monAmt m then acc.cellAmt b m / acc.monAmt m * 100 else 0)
      else none
    growthRate :=
      if opts.includeCountMetrics ∧ 1 < months.length then
        some (growthAt months acc.cellAmt)
      else none }

/-- `DataAggregator.aggregateByPremiumBandAndMonth`.  A `none` collection
models a null or non-array argument; it and the empty collection yield the
empty result structure (the source's early return). -/
def aggregateByPremiumBandAndMonth (data : Option (List Record)) (opts : AggOptions) :
    AggResult :=
  match data with
  | none => emptyAggResult
  | some rs => if rs = [] then emptyAggResult else aggregateCore rs opts

/-- The observable effect of `aggregateByPremiumBandAndMonth` on its input
collection: the processed slice is normalized in place (the missing
`PremiumBand` of a record with a margin bucket is written onto it), and
with sampling active only the head and tail slices are touched. -/
def aggregatePostState (data : List Record) (opts : AggOptions) : List Record :=
  if 0 < opts.sampleSize ∧ opts.sampleSize < data.length then
    let h := opts.sampleSize / 2
    (data.take h).map normalizeRecord
      ++ ((data.drop h).take (data.length - h - h))
      ++ ((data.drop (data.length - h)).map normalizeRecord)
  else data.map normalizeRecord

/-! ## DataManager.js: `filterData` -/

/-- The filter criteria object consumed by `DataManager.filterData`.
`none` on a field models an absent (undefined) criterion; the `dateRange`
entries may themselves be absent. -/
structure DMFilters where
  dateRange : Option (Option DateV × Option DateV) := none
  lenders : Option (List String) := none
  ltvRange : Option String := none
  premiumBands : Option (List String) := none
  purchaseTypes : Option (List String) := none
deriving DecidableEq

/-- The date-range dimension of `DataManager.filterData`: applies only when
both bounds are present; records whose date is absent or invalid fail; the
raw timestamps are compared (`<` against the start, `>` against the end). -/
def dmDateOk (f : DMFilters) (r : Record) : Bool :=
  match f.dateRange with
  | some (some s, some e) =>
    match r.DocumentDate with
    | some d =>
      match d with
      | .invalid => false
      | .valid _ _ _ => ¬ (dateLt d s ∨ dateLt e d)
    | none => false
  | _ => true

/-- The lender dimension of `DataManager.filterData`. -/
def dmLenderOk (f : DMFilters) (r : Record) : Bool :=
  match f.lenders with
  | some ls =>
    ls.isEmpty ||
      (match r.BaseLender with
        | some l => ls.contains l
        | none => false)
  | none => true

/-- The LTV dimension of `DataManager.filterData`: a record is dropped when
its LTV fails to parse, or when the bucket's exclusion test fires
(`below-80` drops `ltv >= 80`, `above-80` drops `ltv < 80`, `above-85`
drops `ltv <= 85`, `above-90` drops `ltv <= 90`). -/
def dmLtvOk (f : DMFilters) (r : Record) : Bool :=
  match f.ltvRange with
  | some lr =>
    if lr = "" ∨ lr = "all" then true
    else
      match jsParseFloatVal r.LTV with
      | none => false
      | some v =>
        ¬ ((lr = "below-80" ∧ 80 ≤ v) ∨ (lr = "above-80" ∧ v < 80) ∨
           (lr = "above-85" ∧ v ≤ 85) ∨ (lr = "above-90" ∧ v ≤ 90))
  | none => true

/-- The premium-band dimension of `DataManager.filterData`. -/
def dmBandOk (f : DMFilters) (r : Record) : Bool :=
  match f.premiumBands with
  | some pbs =>
    pbs.isEmpty ||
      (match r.PremiumBand with
        | some b => b ≠ "" && pbs.contains b
        | none => false)
  | none => true

/-- The purchase-type dimension of `DataManager.filterData`. -/
def dmPurchaseOk (f : DMFilters) (r : Record) : Bool :=
  match f.purchaseTypes with
  | some ps =>
    ps.isEmpty ||
      (match r.PurchaseType with
        | some p => ps.contains p
        | none => false)
  | none => true

/-- The record predicate of `DataManager.filterData`: the fixed
`"Unknown"` / `"-0.4--0.2"` band exclusion, then every dimension
conjunctively. -/
def dmKeep (f : DMFilters) (r : Record) : Bool :=
  if r.PremiumBand = some "Unknown" ∨ r.PremiumBand = some "-0.4--0.2" then false
  else dmDateOk f r && dmLenderOk f r && dmLtvOk f r && dmBandOk f r && dmPurchaseOk f r

/-- `DataManager.filterData`: null data yields `[]` (`data || []`), absent
filters return the data unchanged, otherwise the conjunctive predicate. -/
def dmFilterData (data : Option (List Record)) (f : Option DMFilters) : List Record :=
  match data, f with
  | none, _ => []
  | some rs, none => rs
  | some rs, some fl => rs.filter (dmKeep fl)

/-! ## FilterManager.js: `updateActiveFilters` and `filterData` -/

/-- The filter criteria object of `FilterManager` (no premium-band
dimension). -/
structure FMFilters where
  dateRange : Option (Option DateV × Option DateV) := none
  lenders : Option (List String) := none
  ltvRange : Option String := none
  purchaseTypes : Option (List String) := none
deriving DecidableEq

/-- `updateActiveFilters`: the date range is active iff both bounds are
present. -/
def fmDateActive (f : FMFilters) : Bool :=
  match f.dateRange with
  | some (some _, some _) => true
  | _ => false

/-- `updateActiveFilters`: lenders are active iff the selection is nonempty
and does not contain the `'all_lenders'` sentinel. -/
def fmLendersActive (f : FMFilters) : Bool :=
  match f.lenders with
  | some ls => ls ≠ [] ∧ "all_lenders" ∉ ls
  | none => false

/-- `updateActiveFilters`: the LTV dimension is active iff the value is
truthy and not `'all'`. -/
def fmLtvActive (f : FMFilters) : Bool :=
  match f.ltvRange with
  | some s => s ≠ "" ∧ s ≠ "all"
  | none => false

/-- `updateActiveFilters`: purchase types are active iff the selection is
nonempty and does not contain the `'all_purchase_types'` sentinel. -/
def fmPurchaseActive (f : FMFilters) : Bool :=
  match f.purchaseTypes with
  | some ps => ps ≠ [] ∧ "all_purchase_types" ∉ ps
  | none => false

/-- The day-granular date test of `FilterManager.filterData`: the start
bound floored to its day, the end bound at its last millisecond. -/
def fmDateKeep (s e : DateV) (r : Record) : Bool :=
  match r.DocumentDate with
  | some d => dateLe (dayStartOf s) d ∧ dateLe d (dayEndOf e)
  | none => false

/-- The LTV bucket test of `FilterManager.filterData` (`switch` with
inclusive `>=` thresholds for the three `above-*` buckets; unparsable LTV
is excluded). -/
def fmLtvKeep (lr : String) (r : Record) : Bool :=
  match jsParseFloatVal r.LTV with
  | none => false
  | some v =>
    if lr = "below-80" then v < 80
    else if lr = "above-80" then 80 ≤ v
    else if lr = "above-85" then 85 ≤ v
    else if lr = "above-90" then 90 ≤ v
    else true

/-- `FilterManager.filterData` (run, as `applyFilters` does, after
`updateActiveFilters` on the same criteria): each active dimension filters
the collection in sequence. -/
def fmFilterData (f : FMFilters) (data : Option (List Record)) : List Record :=
  match data with
  | none => []
  | some rs =>
    let d₁ :=
      match f.dateRange with
      | some (some s, some e) =>
        if fmDateActive f then rs.filter (fmDateKeep s e) else rs
      | _ => rs
    let d₂ :=
      match f.lenders with
      | some ls =>
        if fmLendersActive f ∧ ls ≠ [] ∧ "all_lenders" ∉ ls then
          d₁.filter (fun r =>
            match r.BaseLender with
            | some l => l ∈ ls
            | none => false)
        else d₁
      | none => d₁
    let d₃ :=
      match f.ltvRange with
      | some lr =>
        if fmLtvActive f ∧ lr ≠ "" ∧ lr ≠ "all" then d₂.filter (fmLtvKeep lr) else d₂
      | none => d₂
    match f.purchaseTypes with
    | some ps =>
      if fmPurchaseActive f ∧ ps ≠ [] ∧ "all_purchase_types" ∉ ps then
        d₃.filter (fun r =>
          match r.PurchaseType with
          | some p => p ∈ ps
          | none => false)
      else d₃
    | none => d₃

/-! ## DataAggregator.js: `calculateMarketShare` -/

/-- Result of `DataAggregator.calculateMarketShare`: lender list, the
lender/band, lender-total and percentage maps, band totals with their LTV
breakdown, and the overall total. -/
structure DAMarketShare where
  lenders : List String
  lenderBand : String → String → ℚ
  lenderBandBelow80 : String → String → ℚ
  lenderBandAbove80 : String → String → ℚ
  lenderTotal : String → ℚ
  lenderPct : String → ℚ
  lenderBandPct : String → String → ℚ
  bandTotals : String → ℚ
  bandBelow80 : String → ℚ
  bandAbove80 : String → ℚ
  overallTotal : ℚ

/-- Accumulators of the `calculateMarketShare` loop. -/
structure DAMSAcc where
  lenderBand : String → String → ℚ
  lenderBandBelow80 : String → String → ℚ
  lenderBandAbove80 : String → String → ℚ
  lenderTotal : String → ℚ
  bandTotals : String → ℚ
  bandBelow80 : String → ℚ
  bandAbove80 : String → ℚ
  overallTotal : ℚ

/-- Zero accumulators. -/
def daMSInit : DAMSAcc :=
  { lenderBand := fun _ _ => 0
    lenderBandBelow80 := fun _ _ => 0
    lenderBandAbove80 := fun _ _ => 0
    lenderTotal := fun _ => 0
    bandTotals := fun _ => 0
    bandBelow80 := fun _ => 0
    bandAbove80 := fun _ => 0
    overallTotal := 0 }

/-- `ltv < 80` with `parseFloat` semantics (`NaN < 80` is false). -/
def ltvBelow80 (r : Record) : Bool :=
  match jsParseFloatVal r.LTV with
  | some v => v < 80
  | none => false

/-- One iteration of the `calculateMarketShare` loop: records with a truthy
lender and a selected band contribute the loan amount to the lender/band,
lender, band and overall totals, split below/above 80% LTV (unparsable LTV
lands in the above-80 branch). -/
def daMSStep (selectedBands : List String) (acc : DAMSAcc) (r : Record) : DAMSAcc :=
  match r.BaseLender, r.PremiumBand with
  | some l, some b =>
    if l ≠ "" ∧ b ∈ selectedBands then
      let amt := loanAmountOf r
      { lenderBand := upd2 acc.lenderBand l b amt
        lenderBandBelow80 :=
          if ltvBelow80 r then upd2 acc.lenderBandBelow80 l b amt
          else acc.lenderBandBelow80
        lenderBandAbove80 :=
          if ltvBelow80 r then acc.lenderBandAbove80
          else upd2 acc.lenderBandAbove80 l b amt
        lenderTotal := upd1 acc.lenderTotal l amt
        bandTotals := upd1 acc.bandTotals b amt
        bandBelow80 :=
          if ltvBelow80 r then upd1 acc.bandBelow80 b amt else acc.bandBelow80
        bandAbove80 :=
          if ltvBelow80 r then acc.bandAbove80 else upd1 acc.bandAbove80 b amt
        overallTotal := acc.overallTotal + amt }
    else acc
  | _, _ => acc

/-- `DataAggregator.calculateMarketShare`: filter to the selected bands,
accumulate, then derive each lender's overall percentage and per-band
percentage (the latter 0 when the band total is not positive). -/
def daCalculateMarketShare (data : Option (List Record)) (selectedBands : List String) :
    DAMarketShare :=
  match data with
  | none =>
    { lenders := [], lenderBand := fun _ _ => 0, lenderBandBelow80 := fun _ _ => 0
      lenderBandAbove80 := fun _ _ => 0, lenderTotal := fun _ => 0
      lenderPct := fun _ => 0, lenderBandPct := fun _ _ => 0
      bandTotals := fun _ => 0, bandBelow80 := fun _ => 0, bandAbove80 := fun _ => 0
      overallTotal := 0 }
  | some rs =>
    if rs = [] ∨ selectedBands = [] then
      { lenders := [], lenderBand := fun _ _ => 0, lenderBandBelow80 := fun _ _ => 0
        lenderBandAbove80 := fun _ _ => 0, lenderTotal := fun _ => 0
        lenderPct := fun _ => 0, lenderBandPct := fun _ _ => 0
        bandTotals := fun _ => 0, bandBelow80 := fun _ => 0, bandAbove80 := fun _ => 0
        overallTotal := 0 }
    else
      let filtered := rs.filter (fun r =>
        match r.PremiumBand with
        | some b => b ∈ selectedBands
        | none => false)
      let lenders := sortLe strLe (dedupFirst (filtered.filterMap (·.BaseLender)))
      let acc := filtered.foldl (daMSStep selectedBands) daMSInit
      { lenders := lenders
        lenderBand := acc.lenderBand
        lenderBandBelow80 := acc.lenderBandBelow80
        lenderBandAbove80 := acc.lenderBandAbove80
        lenderTotal := acc.lenderTotal
        lenderPct := fun l => acc.lenderTotal l / acc.overallTotal * 100
        lenderBandPct := fun l b =>
          if 0 < acc.bandTotals b then acc.lenderBand l b / acc.bandTotals b * 100
          else 0
        bandTotals := acc.bandTotals
        bandBelow80 := acc.bandBelow80
        bandAbove80 := acc.bandAbove80
        overallTotal := acc.overallTotal }

/-! ## MarketShareTable.js: `calculateMarketShare` and the render shares -/

/-- An LTV segment of the cross-tab. -/
inductive LTVSeg where
  | under80 : LTVSeg
  | over80 : LTVSeg
deriving DecidableEq

/-- An `{amount, count}` accumulator pair. -/
structure MSAmount where
  amount : ℚ
  count : ℕ
deriving DecidableEq

/-- The zero pair. -/
def MSAmount.zero : MSAmount := ⟨0, 0⟩

/-- Add one record's loan amount to an `{amount, count}` pair. -/
def MSAmount.push (p : MSAmount) (a : ℚ) : MSAmount := ⟨p.amount + a, p.count + 1⟩

/-- The LTV segment of a record:
`!isNaN(ltv) && ltv < 80 ? 'ltv_under_80' : 'ltv_over_80'`
(unparsable LTV lands in the over-80 segment). -/
def ltvSegmentOf (r : Record) : LTVSeg :=
  match jsParseFloatVal r.LTV with
  | some v => if v < 80 then .under80 else .over80
  | none => .over80

/-- Result of `MarketShareTable.calculateMarketShare`: the three nested
accumulation levels (lender × band × segment with lender/band and lender
totals, band × segment with band totals, overall), the sorted lender list,
and the selected bands. -/
structure MSResult where
  lenderBandSeg : String → String → LTVSeg → MSAmount
  lenderBandTotal : String → String → MSAmount
  lenderOverallSeg : String → LTVSeg → MSAmount
  lenderOverallTotal : String → MSAmount
  bandSeg : String → LTVSeg → MSAmount
  bandTotal : String → MSAmount
  overallSeg : LTVSeg → MSAmount
  overallTotal : MSAmount
  uniqueLenders : List String
  selectedPremiumBands : List String

/-- The all-zero cross-tab result over a selected band list. -/
def msEmpty (selected : List String) : MSResult :=
  { lenderBandSeg := fun _ _ _ => .zero
    lenderBandTotal := fun _ _ => .zero
    lenderOverallSeg := fun _ _ => .zero
    lenderOverallTotal := fun _ => .zero
    bandSeg := fun _ _ => .zero
    bandTotal := fun _ => .zero
    overallSeg := fun _ => .zero
    overallTotal := .zero
    uniqueLenders := []
    selectedPremiumBands := selected }

/-- The cross-tab guard: a record contributes exactly when its lender and
premium band are both present and truthy and the band is selected
(`isNaN(loanAmount)` can never fire because of the `|| 0` fallback and is
omitted); on success return the record's `(lender, band)` key. -/
def msHit (selected : List String) (r : Record) : Option (String × String) :=
  match r.BaseLender, r.PremiumBand with
  | some l, some b =>
    if l ≠ "" ∧ b ≠ "" ∧ b ∈ selected then some (l, b) else none
  | _, _ => none

/-- One iteration of the cross-tab loop: a guarded record's loan amount and
a count of one are pushed into all three accumulation levels at its lender,
band and LTV segment. -/
def msStep (selected : List String) (acc : MSResult) (r : Record) : MSResult :=
  match msHit selected r with
  | some (l, b) =>
      let amt := loanAmountOf r
      let seg := ltvSegmentOf r
      { acc with
        lenderBandSeg := fun l' b' s' =>
          if l' = l ∧ b' = b ∧ s' = seg then (acc.lenderBandSeg l' b' s').push amt
          else acc.lenderBandSeg l' b' s'
        lenderBandTotal := fun l' b' =>
          if l' = l ∧ b' = b then (acc.lenderBandTotal l' b').push amt
          else acc.lenderBandTotal l' b'
        lenderOverallSeg := fun l' s' =>
          if l' = l ∧ s' = seg then (acc.lenderOverallSeg l' s').push amt
          else acc.lenderOverallSeg l' s'
        lenderOverallTotal := fun l' =>
          if l' = l then (acc.lenderOverallTotal l').push amt
          else acc.lenderOverallTotal l'
        bandSeg := fun b' s' =>
          if b' = b ∧ s' = seg then (acc.bandSeg b' s').push amt
          else acc.bandSeg b' s'
        bandTotal := fun b' =>
          if b' = b then (acc.bandTotal b').push amt else acc.bandTotal b'
        overallSeg := fun s' =>
          if s' = seg then (acc.overallSeg s').push amt else acc.overallSeg s'
        overallTotal := acc.overallTotal.push amt }
  | none => acc

/-- `MarketShareTable.calculateMarketShare`: early-return the empty result
for missing/empty data or selection, else run the loop and sort the lender
set. -/
def msCalculateMarketShare (data : Option (List Record)) (selected : List String) :
    MSResult :=
  match data with
  | none => msEmpty selected
  | some rs =>
    if rs = [] ∨ selected = [] then msEmpty selected
    else
      let acc := rs.foldl (msStep selected) (msEmpty selected)
      { acc with
        uniqueLenders :=
          sortLe strLe (dedupFirst (rs.filterMap (fun r =>
            (msHit selected r).map Prod.fst))) }

/-- The per-band/segment lender share built by `MarketShareTable.render`
(a 0-to-1 fraction: lender amount over the band/segment total when that
total is positive, else 0). -/
def renderBandSegShare (ms : MSResult) (l b : String) (seg : LTVSeg) : ℚ :=
  if 0 < (ms.bandSeg b seg).amount then
    (ms.lenderBandSeg l b seg).amount / (ms.bandSeg b seg).amount
  else 0

/-- The per-band lender share of the render step (band totals column). -/
def renderBandShare (ms : MSResult) (l b : String) : ℚ :=
  if 0 < (ms.bandTotal b).amount then
    (ms.lenderBandTotal l b).amount / (ms.bandTotal b).amount
  else 0

/-! ## Reference formulation of the cross-tab accumulators

Independent spec-side formulation used to state the cross-tab
correctness: the records passing the guard that also match a key
predicate, and their total amount and count. -/

/-- The records of `rs` whose cross-tab key satisfies `p` (where `p` sees
the record's lender, band, and LTV segment). -/
def msHitsWhere (rs : List Record) (sel : List String)
    (p : String → String → LTVSeg → Prop) [∀ l b s, Decidable (p l b s)] :
    List Record :=
  rs.filter (fun r =>
    match msHit sel r with
    | some (l, b) => decide (p l b (ltvSegmentOf r))
    | none => false)

/-- Total loan amount and record count of a record list. -/
def msSumOf (l : List Record) : MSAmount := ⟨(l.map loanAmountOf).sum, l.length⟩

/-- Componentwise sum of two `{amount, count}` pairs. -/
def MSAmount.comb (x y : MSAmount) : MSAmount := ⟨x.amount + y.amount, x.count + y.count⟩

/-! ## Concrete inputs used by the claim theorems -/

/-- A cross-tab record with lender, selected band, below-80 LTV. -/
def lenderedRecord : Record :=
  { BaseLender := some "L"
    PremiumBand := some "0-20"
    LTV := JSVal.num 50
    Loan := JSVal.num 100 }

/-- A cross-tab record that lacks a lender but carries a selected band. -/
def lenderlessRecord : Record :=
  { PremiumBand := some "0-20"
    LTV := JSVal.num 50
    Loan := JSVal.num 100 }

/-- A record as parsed from a raw row that carries a margin bucket but no
premium band yet. -/
def bucketOnlyRecord : Record := { GrossMarginBucket := JSVal.str "abc" }

/-- A record whose LTV is exactly 85. -/
def recordLTV85 : Record := { LTV := JSVal.num 85 }

/-- A record carrying the excluded `"Unknown"` band with a valid date,
loan amount and lender. -/
def unknownBandRecord : Record :=
  { PremiumBand := some "Unknown"
    DocumentDate := some (.valid 0 2025 0)
    Loan := JSVal.num 100
    BaseLender := some "A" }

/-- The market-share metric of a result, read as the source's consumers do
(0 when the metrics block was not requested). -/
def marketShareOf (R : AggResult) (b m : String) : ℚ :=
  (R.marketShare.getD (fun _ _ => 0)) b m

/-- A record with a negative loan amount (nothing in ingestion forbids
negative `Loan` values). -/
def negLoanRecord : Record :=
  { PremiumBand := some "0-20"
    DocumentDate := some (.valid 0 2025 0)
    Loan := JSVal.num (-5) }

/-- A record with a positive loan amount in a second band, same month. -/
def posLoanRecord : Record :=
  { PremiumBand := some "20-40"
    DocumentDate := some (.valid 0 2025 0)
    Loan := JSVal.num 10 }

/-- The nonnegativity invariant of the aggregation loop under nonnegative
loan amounts: all cells are nonnegative and each month total is the sum of
its column of cells over the band set. -/
def AggInv2 (bands : List String) (acc : AggAcc) : Prop :=
  (∀ b m : String, 0 ≤ acc.cellAmt b m) ∧
  (∀ m : String, acc.monAmt m = (bands.map (fun b => acc.cellAmt b m)).sum)

/-- The invariant of the aggregation loop: band totals and month totals
each sum to the grand total, for amounts and for counts. -/
def AggInv (bands months : List String) (acc : AggAcc) : Prop :=
  (bands.map acc.bandAmt).sum = acc.ovAmt ∧
  (months.map acc.monAmt).sum = acc.ovAmt ∧
  (bands.map acc.bandCnt).sum = acc.ovCnt ∧
  (months.map acc.monCnt).sum = acc.ovCnt

/-! ## General helper lemmas -/

theorem string_data_append (a b : String) : (a ++ b).data = a.data ++ b.data := rfl

theorem dash_mem_concat (a b : String) : '-' ∈ (a ++ "-" ++ b).data := by
  rw [string_data_append, string_data_append]
  simp

/-! ## Decimal rendering lemmas -/

theorem string_mk_inj (a b : String) (h : a.data = b.data) : a = b := by
  cases a
  cases b
  exact congrArg String.mk h

theorem digitsValAux_nil (acc : ℕ) : digitsValAux acc [] = acc := rfl

theorem digitsValAux_cons (acc : ℕ) (c : Char) (cs : List Char) :
    digitsValAux acc (c :: cs) = digitsValAux (acc * 10 + (c.toNat - 48)) cs := rfl

theorem digitChar_isDigit (n : ℕ) (h : n < 10) : (digitChar n).isDigit = true := by
  interval_cases n <;> decide

theorem digitChar_toNat (n : ℕ) (h : n < 10) : (digitChar n).toNat = 48 + n := by
  interval_cases n <;> decide

theorem natDigits_all_digits (fuel n : ℕ) :
    ∀ c ∈ natDigits fuel n, c.isDigit = true := by
  induction fuel generalizing n with
  | zero => intro c hc; simp [natDigits] at hc
  | succ fuel ih =>
    intro c hc
    rw [natDigits] at hc
    by_cases h : n < 10
    · rw [if_pos h] at hc
      simp at hc
      rw [hc]
      exact digitChar_isDigit n h
    · rw [if_neg h] at hc
      rcases List.mem_append.mp hc with h' | h'
      · exact ih _ c h'
      · simp at h'
        rw [h']
        exact digitChar_isDigit _ (Nat.mod_lt n (by omega))

theorem natDigits_ne_nil (fuel n : ℕ) (h : 0 < fuel) : natDigits fuel n ≠ [] := by
  cases fuel with
  | zero => omega
  | succ fuel =>
    rw [natDigits]
    by_cases hn : n < 10
    · rw [if_pos hn]
      simp
    · rw [if_neg hn]
      simp

theorem digitsValAux_append (acc : ℕ) (xs ys : List Char) :
    digitsValAux acc (xs ++ ys) = digitsValAux (digitsValAux acc xs) ys := by
  induction xs generalizing acc with
  | nil => rfl
  | cons c t ih =>
    rw [List.cons_append, digitsValAux_cons, digitsValAux_cons, ih]

theorem natDigits_val (fuel n : ℕ) (h : n < 10 ^ fuel) :
    digitsVal (natDigits fuel n) = n := by
  induction fuel generalizing n with
  | zero =>
    interval_cases n
    rfl
  | succ fuel ih =>
    rw [natDigits]
    by_cases hn : n < 10
    · rw [if_pos hn]
      show digitsValAux 0 [digitChar n] = n
      rw [digitsValAux_cons, digitsValAux_nil, digitChar_toNat n hn]
      omega
    · rw [if_neg hn]
      show digitsValAux 0 (natDigits fuel (n / 10) ++ [digitChar (n % 10)]) = n
      rw [digitsValAux_append]
      have hdiv : n / 10 < 10 ^ fuel := by
        rw [Nat.div_lt_iff_lt_mul (by norm_num)]
        calc n < 10 ^ (fuel + 1) := h
          _ = 10 ^ fuel * 10 := by ring
      have hv : digitsValAux 0 (natDigits fuel (n / 10)) = n / 10 := ih _ hdiv
      rw [hv, digitsValAux_cons, digitsValAux_nil,
        digitChar_toNat _ (Nat.mod_lt n (by omega))]
      omega

theorem natToStr_val (n : ℕ) : digitsVal (natToStr n).data = n := by
  have h10 : n < 10 ^ (n + 1) := by
    calc n < 10 ^ n := Nat.lt_pow_self (by norm_num) n
      _ ≤ 10 ^ (n + 1) := Nat.pow_le_pow_right (by norm_num) (by omega)
  exact natDigits_val (n + 1) n h10

theorem natToStr_data (n : ℕ) : (natToStr n).data = natDigits (n + 1) n := rfl

theorem natToStr_inj (a b : ℕ) (h : natToStr a = natToStr b) : a = b := by
  have := congrArg (fun s => digitsVal s.data) h
  simpa [natToStr_val] using this

theorem natToStr_all_digits (n : ℕ) :
    ∀ c ∈ (natToStr n).data, c.isDigit = true := by
  rw [natToStr_data]
  exact natDigits_all_digits _ _

theorem natToStr_ne_nil (n : ℕ) : (natToStr n).data ≠ [] := by
  rw [natToStr_data]
  exact natDigits_ne_nil _ _ (by omega)

theorem intToStr_nonneg (i : ℤ) (h : 0 ≤ i) : intToStr i = natToStr i.toNat := by
  rw [intToStr, if_neg (by omega)]

theorem intToStr_all_digits (i : ℤ) (h : 0 ≤ i) :
    ∀ c ∈ (intToStr i).data, c.isDigit = true := by
  rw [intToStr_nonneg i h]
  exact natToStr_all_digits _

theorem intToStr_inj (a b : ℤ) (h : intToStr a = intToStr b) : a = b := by
  rw [intToStr, intToStr] at h
  by_cases ha : a < 0 <;> by_cases hb : b < 0
  · rw [if_pos ha, if_pos hb] at h
    have hd := congrArg String.data h
    rw [string_data_append, string_data_append] at hd
    simp only [List.cons.injEq] at hd
    have : natToStr (-a).toNat = natToStr (-b).toNat := by
      apply string_mk_inj
      have : ("-".data ++ (natToStr (-a).toNat).data : List Char)
          = "-".data ++ (natToStr (-b).toNat).data := hd
      simpa using this
    have := natToStr_inj _ _ this
    omega
  · exfalso
    rw [if_pos ha, if_neg hb] at h
    have hd := congrArg String.data h
    rw [string_data_append] at hd
    rcases hx : (natToStr b.toNat).data with _ | ⟨c, t⟩
    · exact natToStr_ne_nil _ hx
    · rw [hx] at hd
      have hc : '-' = c := by
        have : ('-' :: (natToStr (-a).toNat).data : List Char) = c :: t := by
          simpa using hd
        exact (List.cons.injEq _ _ _ _).mp this |>.1
      have := natToStr_all_digits b.toNat c (by rw [hx]; simp)
      rw [← hc] at this
      simp at this
  · exfalso
    rw [if_neg ha, if_pos hb] at h
    have hd := congrArg String.data h
    rw [string_data_append] at hd
    rcases hx : (natToStr a.toNat).data with _ | ⟨c, t⟩
    · exact natToStr_ne_nil _ hx
    · rw [hx] at hd
      have hc : c = '-' := by
        have : (c :: t : List Char) = '-' :: (natToStr (-b).toNat).data := by
          simpa using hd
        exact (List.cons.injEq _ _ _ _).mp this |>.1
      have := natToStr_all_digits a.toNat c (by rw [hx]; simp)
      rw [hc] at this
      simp at this
  · rw [if_neg ha, if_neg hb] at h
    have := natToStr_inj _ _ h
    omega

/-! ## Month-key injectivity and month-list `Nodup` -/

theorem pad2_intToStr_spec (m : ℤ) (h1 : 1 ≤ m) (h2 : m ≤ 12) :
    (pad2 (intToStr m)).data.length = 2 ∧
    digitsVal ((pad2 (intToStr m)).data) = m.toNat := by
  interval_cases m <;> exact ⟨by decide, by decide⟩

theorem monthKeyOf_data (y m0 : ℤ) :
    (monthKeyOf y m0).data = (intToStr y).data ++ '-' :: (pad2 (intToStr (m0 + 1))).data := by
  rw [monthKeyOf, string_data_append, string_data_append]
  simp

theorem monthIdxKey_inj (s t : ℤ) (h : monthIdxKey s = monthIdxKey t) : s = t := by
  have hs1 : (1 : ℤ) ≤ s % 12 + 1 := by omega
  have hs2 : s % 12 + 1 ≤ 12 := by omega
  have ht1 : (1 : ℤ) ≤ t % 12 + 1 := by omega
  have ht2 : t % 12 + 1 ≤ 12 := by omega
  have hd := congrArg String.data h
  rw [monthIdxKey, monthIdxKey, monthKeyOf_data, monthKeyOf_data] at hd
  have hlen : ('-' :: (pad2 (intToStr (s % 12 + 1))).data).length
      = ('-' :: (pad2 (intToStr (t % 12 + 1))).data).length := by
    rw [List.length_cons, List.length_cons,
      (pad2_intToStr_spec _ hs1 hs2).1, (pad2_intToStr_spec _ ht1 ht2).1]
  have hinj := List.append_inj' hd hlen
  have hy : s / 12 = t / 12 := intToStr_inj _ _ (string_mk_inj _ _ hinj.1)
  have hm : s % 12 = t % 12 := by
    have hpad : (pad2 (intToStr (s % 12 + 1))).data
        = (pad2 (intToStr (t % 12 + 1))).data := by
      have := hinj.2
      simpa using this
    have := congrArg digitsVal hpad
    rw [(pad2_intToStr_spec _ hs1 hs2).2, (pad2_intToStr_spec _ ht1 ht2).2] at this
    omega
  omega

theorem getAllMonthsInRange_nodup (s e : DateV) :
    (getAllMonthsInRange s e).Nodup := by
  cases s with
  | invalid => simp [getAllMonthsInRange]
  | valid ts ys ms =>
    cases e with
    | invalid => simp [getAllMonthsInRange]
    | valid te ye me =>
      rw [getAllMonthsInRange]
      split
      · refine List.Nodup.map ?_ (List.nodup_range _)
        intro i j hij
        have := monthIdxKey_inj _ _ hij
        omega
      · exact List.nodup_nil

/-! ## `dedupFirst` and `sortLe` lemmas -/

theorem dedupFirst_nodup {α : Type} [DecidableEq α] (l : List α) :
    (dedupFirst l).Nodup := by
  induction l with
  | nil => exact List.nodup_nil
  | cons x xs ih =>
    rw [dedupFirst]
    refine List.Nodup.cons ?_ (List.Nodup.filter _ ih)
    intro hx
    have := List.of_mem_filter hx
    simp at this

theorem insertLe_perm {α : Type} (le : α → α → Bool) (x : α) (l : List α) :
    List.Perm (insertLe le x l) (x :: l) := by
  induction l with
  | nil => exact List.Perm.refl _
  | cons y ys ih =>
    rw [insertLe]
    split
    · exact List.Perm.refl _
    · exact (List.Perm.cons y ih).trans (List.Perm.swap x y ys)

theorem sortLe_perm {α : Type} (le : α → α → Bool) (l : List α) :
    List.Perm (sortLe le l) l := by
  induction l with
  | nil => exact List.Perm.refl _
  | cons x xs ih =>
    exact (insertLe_perm le x (sortLe le xs)).trans (List.Perm.cons x ih)

theorem sortLe_nodup {α : Type} (le : α → α → Bool) (l : List α) (h : l.Nodup) :
    (sortLe le l).Nodup :=
  (sortLe_perm le l).nodup_iff.mpr h

theorem sortLe_mem {α : Type} (le : α → α → Bool) (l : List α) (a : α) :
    a ∈ sortLe le l ↔ a ∈ l :=
  (sortLe_perm le l).mem_iff

/-! ## C4: null/malformed input to the aggregation -/

/-- C4 counterexample: calling `aggregateByPremiumBandAndMonth` with a null
collection does not fail: it returns the empty result structure, refuting
the fail-fast claim. -/
theorem aggregate_null_returns_empty_result :
    aggregateByPremiumBandAndMonth none {} = emptyAggResult := rfl

/-- C4 (amended): a null or malformed (non-array) collection — and likewise
an empty one — makes `aggregateByPremiumBandAndMonth` silently return the
empty result structure, for every choice of options; no error propagates. -/
theorem aggregate_no_contract_failure (opts : AggOptions) :
    aggregateByPremiumBandAndMonth none opts = emptyAggResult ∧
    aggregateByPremiumBandAndMonth (some []) opts = emptyAggResult := by
  constructor
  · rfl
  · rfl

/-! ## C10: the `"Unknown"` fallback of `convertMarginBucketToBps` -/

/-- C10: every null, undefined or non-string input to
`convertMarginBucketToBps` yields the literal `"Unknown"`, and the falsy /
non-string guard is the only way the function introduces that label: a
string input mapping to `"Unknown"` is either empty (caught by the same
guard) or already the literal `"Unknown"` (returned unchanged). -/
theorem convert_unknown_only_from_guard :
    (∀ v : JSVal, v.isString = false → convertMarginBucketToBps v = "Unknown") ∧
    (∀ s : String,
      convertMarginBucketToBps (.str s) = "Unknown" → s = "" ∨ s = "Unknown") := by
  constructor
  · intro v hv
    cases v <;> first
      | rfl
      | simp [JSVal.isString] at hv
  · intro s h
    by_cases hs : s = ""
    · exact Or.inl hs
    · right
      rw [convertMarginBucketToBps, if_neg hs] at h
      rcases hsp : jsSplit '-' s with _ | ⟨p₁, _ | ⟨p₂, _ | ⟨p₃, rest⟩⟩⟩ <;>
        simp only [hsp] at h
      · exact h
      · exact h
      · rcases h₁ : jsParseFloat p₁ with _ | mn <;> rcases h₂ : jsParseFloat p₂ with _ | mx <;>
          simp only [h₁, h₂] at h
        · exact h
        · exact h
        · exact h
        · exfalso
          have hd := dash_mem_concat (intToStr (jsRound (mn * 100)))
            (intToStr (jsRound (mx * 100)))
          rw [h] at hd
          simp at hd
      · exact h

/-- C10 witness: the theorem applied at `null` and at the empty string. -/
theorem convert_unknown_only_from_guard_witness :
    convertMarginBucketToBps JSVal.null = "Unknown" ∧ ("" = "" ∨ "" = "Unknown") :=
  ⟨convert_unknown_only_from_guard.1 JSVal.null rfl,
   convert_unknown_only_from_guard.2 "" rfl⟩

/-! ## Split lemmas -/

theorem splitOnChar_nosep (c : Char) (ys : List Char) (h : c ∉ ys) :
    splitOnChar c ys = [ys] := by
  induction ys with
  | nil => rfl
  | cons a t ih =>
    have ha : ¬ a = c := fun hac => h (by simp [hac])
    have ht : c ∉ t := fun hc => h (List.mem_cons_of_mem _ hc)
    simp only [splitOnChar, if_neg ha, ih ht]

theorem splitOnChar_sep (c : Char) (xs ys : List Char) (h : c ∉ xs) :
    splitOnChar c (xs ++ c :: ys) = xs :: splitOnChar c ys := by
  induction xs with
  | nil => simp [splitOnChar]
  | cons a t ih =>
    have ha : ¬ a = c := fun hac => h (by simp [hac])
    have ht : c ∉ t := fun hc => h (List.mem_cons_of_mem _ hc)
    simp only [List.cons_append, splitOnChar, if_neg ha, List.append_eq, ih ht]

theorem jsSplit_sep (s₁ s₂ : String) (h₁ : '-' ∉ s₁.data) (h₂ : '-' ∉ s₂.data) :
    jsSplit '-' (s₁ ++ "-" ++ s₂) = [s₁, s₂] := by
  have hdata : (s₁ ++ "-" ++ s₂).data = s₁.data ++ '-' :: s₂.data := by
    rw [string_data_append, string_data_append, show "-".data = ['-'] by rfl]
    simp
  rw [jsSplit, hdata, splitOnChar_sep _ _ _ h₁, splitOnChar_nosep _ _ h₂]
  rfl

theorem concat_dash_ne_empty (s₁ s₂ : String) : s₁ ++ "-" ++ s₂ ≠ "" := by
  intro h
  have hd := dash_mem_concat s₁ s₂
  rw [h] at hd
  simp at hd

/-! ## C3: `convertMarginBucketToBps` on range strings -/

/-- C3 counterexample: the negative-bounded bucket `"-0.4--0.2"` is NOT
converted to `"-40--20"`: the naive `split('-')` yields four pieces, so the
original string is returned unchanged. -/
theorem convert_negative_bucket_unchanged :
    convertMarginBucketToBps (.str "-0.4--0.2") = "-0.4--0.2" ∧
    "-0.4--0.2" ≠ "-40--20" := by
  constructor
  · rfl
  · decide

/-- C3 (amended): a bucket string made of two hyphen-free parts that both
parse as (necessarily nonnegative) decimals is converted to
`"<round(min*100)>-<round(max*100)>"` — in particular `"1.6-1.8"` yields
`"160-180"`; a nonempty string that does not split into exactly two parts,
or whose parts do not parse, is returned unchanged — in particular
`"-0.4--0.2"` splits into four parts and comes back unchanged rather than
being parsed as a negative range. -/
theorem convert_margin_bucket_spec :
    (∀ (s₁ s₂ : String) (v₁ v₂ : ℚ), '-' ∉ s₁.data → '-' ∉ s₂.data →
      jsParseFloat s₁ = some v₁ → jsParseFloat s₂ = some v₂ →
      convertMarginBucketToBps (.str (s₁ ++ "-" ++ s₂)) =
        intToStr (jsRound (v₁ * 100)) ++ "-" ++ intToStr (jsRound (v₂ * 100))) ∧
    (∀ s : String, s ≠ "" → (jsSplit '-' s).length ≠ 2 →
      convertMarginBucketToBps (.str s) = s) ∧
    (∀ (s p₁ p₂ : String), s ≠ "" → jsSplit '-' s = [p₁, p₂] →
      jsParseFloat p₁ = none ∨ jsParseFloat p₂ = none →
      convertMarginBucketToBps (.str s) = s) ∧
    convertMarginBucketToBps (.str "1.6-1.8") = "160-180" := by
  refine ⟨?_, ?_, ?_, ?_⟩
  · intro s₁ s₂ v₁ v₂ h₁ h₂ hp₁ hp₂
    rw [convertMarginBucketToBps, if_neg (concat_dash_ne_empty s₁ s₂),
      jsSplit_sep s₁ s₂ h₁ h₂]
    simp only [hp₁, hp₂]
  · intro s hs hlen
    rw [convertMarginBucketToBps, if_neg hs]
    rcases hsp : jsSplit '-' s with _ | ⟨p₁, _ | ⟨p₂, _ | ⟨p₃, rest⟩⟩⟩ <;>
      simp only [hsp] at hlen ⊢ <;> first | rfl | simp at hlen
  · intro s p₁ p₂ hs hsp hnone
    rw [convertMarginBucketToBps, if_neg hs]
    simp only [hsp]
    rcases h₁ : jsParseFloat p₁ with _ | v₁ <;> rcases h₂ : jsParseFloat p₂ with _ | v₂ <;>
      simp only [h₁, h₂]
    rcases hnone with hn | hn
    · rw [h₁] at hn
      exact Option.noConfusion hn
    · rw [h₂] at hn
      exact Option.noConfusion hn
  · rw [show convertMarginBucketToBps (.str "1.6-1.8")
        = intToStr (jsRound ((1 : ℚ) * ((digitsVal ['1'] : ℚ) + fracVal ['6']) * 100))
          ++ "-"
          ++ intToStr (jsRound ((1 : ℚ) * ((digitsVal ['1'] : ℚ) + fracVal ['8']) * 100))
        from rfl]
    rw [show jsRound ((1 : ℚ) * ((digitsVal ['1'] : ℚ) + fracVal ['6']) * 100) = 160 by
      norm_num [jsRound, fracVal, show digitsVal ['1'] = 1 from rfl,
        show digitsVal ['6'] = 6 from rfl]]
    rw [show jsRound ((1 : ℚ) * ((digitsVal ['1'] : ℚ) + fracVal ['8']) * 100) = 180 by
      norm_num [jsRound, fracVal, show digitsVal ['1'] = 1 from rfl,
        show digitsVal ['8'] = 8 from rfl]]
    rfl

/-- C3 witness: the amended theorem applied at `"1.6"`, `"1.8"`, at the
three-hyphen string `"-0.4--0.2"`, and at the unparsable `"a-b"`. -/
theorem convert_margin_bucket_spec_witness :
    convertMarginBucketToBps
        (.str ("1.6" ++ "-" ++ "1.8")) =
      intToStr (jsRound ((1 * ((digitsVal ['1'] : ℚ) + fracVal ['6'])) * 100)) ++ "-" ++
        intToStr (jsRound ((1 * ((digitsVal ['1'] : ℚ) + fracVal ['8'])) * 100)) ∧
    convertMarginBucketToBps (.str "-0.4--0.2") = "-0.4--0.2" ∧
    convertMarginBucketToBps (.str "a-b") = "a-b" :=
  ⟨convert_margin_bucket_spec.1 "1.6" "1.8" _ _ (by decide) (by decide) rfl rfl,
   convert_margin_bucket_spec.2.1 "-0.4--0.2" (by decide) (by decide),
   convert_margin_bucket_spec.2.2.1 "a-b" "a" "b" (by decide) (by rfl) (Or.inl rfl)⟩

/-! ## C5: mutation of input records by the aggregation pass -/

/-- C5 counterexample: aggregating a collection holding a record without a
`PremiumBand` mutates it — after the call the record carries a new
`PremiumBand` field, so the input collection is not left unchanged. -/
theorem aggregate_mutates_bucket_only_record :
    aggregatePostState [bucketOnlyRecord] {} ≠ [bucketOnlyRecord] ∧
    aggregatePostState [bucketOnlyRecord] {} =
      [{ bucketOnlyRecord with PremiumBand := some "abc" }] := by
  constructor
  · decide
  · rfl

theorem map_eq_self_of_fixed {α : Type} (f : α → α) (l : List α)
    (h : ∀ a ∈ l, f a = a) : l.map f = l := by
  induction l with
  | nil => rfl
  | cons x xs ih =>
    rw [List.map_cons, h x (List.mem_cons_self x xs),
      ih (fun a ha => h a (List.mem_cons_of_mem _ ha))]

theorem normalizeRecord_fixed (r : Record)
    (h : premiumBandTruthy r = true ∨ r.GrossMarginBucket.truthy = false) :
    normalizeRecord r = r := by
  rw [normalizeRecord]
  rcases h with h | h <;> simp [h]

/-- C5 (amended): the aggregation pass leaves every input record unchanged
EXCEPT that a record with a falsy `PremiumBand` and a truthy
`GrossMarginBucket` gets the converted band written onto it in place; in
particular a collection whose records all carry their band already (or have
no margin bucket) is left fully unchanged, for every sampling option. -/
theorem aggregate_preserves_banded_records (rs : List Record) (opts : AggOptions)
    (h : ∀ r ∈ rs, premiumBandTruthy r = true ∨ r.GrossMarginBucket.truthy = false) :
    aggregatePostState rs opts = rs := by
  rw [aggregatePostState]
  split
  · dsimp only
    rw [map_eq_self_of_fixed _ _
        (fun a ha => normalizeRecord_fixed a (h a (List.mem_of_mem_take ha))),
      map_eq_self_of_fixed _ _
        (fun a ha => normalizeRecord_fixed a (h a (List.mem_of_mem_drop ha)))]
    rename_i hcond
    calc rs.take (opts.sampleSize / 2)
          ++ ((rs.drop (opts.sampleSize / 2)).take
              (rs.length - opts.sampleSize / 2 - opts.sampleSize / 2))
          ++ rs.drop (rs.length - opts.sampleSize / 2)
        = rs.take (opts.sampleSize / 2)
          ++ ((rs.drop (opts.sampleSize / 2)).take
              (rs.length - opts.sampleSize / 2 - opts.sampleSize / 2)
            ++ (rs.drop (opts.sampleSize / 2)).drop
              (rs.length - opts.sampleSize / 2 - opts.sampleSize / 2)) := by
          rw [List.append_assoc]
          congr 1
          congr 1
          rw [List.drop_drop]
          congr 1
          omega
      _ = rs.take (opts.sampleSize / 2) ++ rs.drop (opts.sampleSize / 2) := by
          rw [List.take_append_drop]
      _ = rs := List.take_append_drop _ _
  · exact map_eq_self_of_fixed _ _ (fun a ha => normalizeRecord_fixed a (h a ha))

/-- C5 witness: the amended theorem applied to a one-record collection whose
record already carries its premium band. -/
theorem aggregate_preserves_banded_records_witness :
    aggregatePostState [{ PremiumBand := some "160-180" }] {} =
      [{ PremiumBand := some "160-180" }] :=
  aggregate_preserves_banded_records [{ PremiumBand := some "160-180" }] {}
    (by decide)

/-! ## C2: LTV bucket semantics of the two filter implementations -/

/-- C2: on the boundary input LTV = 85 with bucket `above-85`,
`DataManager.filterData` drops the record (its test keeps only `ltv > 85`,
contradicting the claimed inclusive `>=` threshold and the code's own
`'85% and above'` label), while `FilterManager.filterData` keeps it
(inclusive `>=`), and the same divergence holds at LTV = 90 with
`above-90`; at LTV = 80 with `above-80` both implementations keep the
record, and both drop a record with unparsable LTV. -/
theorem dm_fm_ltv_boundary_divergence :
    dmFilterData (some [recordLTV85]) (some { ltvRange := some "above-85" }) = [] ∧
    fmFilterData { ltvRange := some "above-85" } (some [recordLTV85]) = [recordLTV85] ∧
    dmFilterData (some [{ LTV := JSVal.num 90 }]) (some { ltvRange := some "above-90" })
      = [] ∧
    fmFilterData { ltvRange := some "above-90" } (some [{ LTV := JSVal.num 90 }])
      = [{ LTV := JSVal.num 90 }] ∧
    dmFilterData (some [{ LTV := JSVal.num 80 }]) (some { ltvRange := some "above-80" })
      = [{ LTV := JSVal.num 80 }] ∧
    fmFilterData { ltvRange := some "above-80" } (some [{ LTV := JSVal.num 80 }])
      = [{ LTV := JSVal.num 80 }] ∧
    dmFilterData (some [{ LTV := JSVal.str "n/a" }]) (some { ltvRange := some "above-80" })
      = [] ∧
    fmFilterData { ltvRange := some "above-80" } (some [{ LTV := JSVal.str "n/a" }])
      = [] := by
  refine ⟨?_, ?_, ?_, ?_, ?_, ?_, ?_, ?_⟩ <;> rfl

/-! ## C1: the fixed `"Unknown"` / `"-0.4--0.2"` band exclusion -/

/-- C1 counterexample: handed a collection holding an `"Unknown"`-band
record directly, `aggregateByPremiumBandAndMonth` lists `"Unknown"` among
its premium bands — the aggregator itself does not implement the exclusion
rule. -/
theorem aggregate_includes_unknown_band :
    (aggregateByPremiumBandAndMonth (some [unknownBandRecord]) {}).premiumBands
      = ["Unknown"] := rfl

/-- C1 (amended): the two-band exclusion is enforced by
`DataManager.filterData` — every record of any collection it filters has a
band other than `"Unknown"` and `"-0.4--0.2"` — but it is NOT enforced by
the aggregation or market-share operations themselves: fed an
`"Unknown"`-band record directly, the aggregator counts its full amount in
the overall total, and `calculateMarketShare` with `"Unknown"` among the
selected bands accumulates it into that band's total. -/
theorem banned_bands_excluded_only_by_dm_filter :
    (∀ (data : List Record) (f : DMFilters) (r : Record),
      r ∈ dmFilterData (some data) (some f) →
      r.PremiumBand ≠ some "Unknown" ∧ r.PremiumBand ≠ some "-0.4--0.2") ∧
    (aggregateByPremiumBandAndMonth (some [unknownBandRecord]) {}).totalsOverall = 100 ∧
    (daCalculateMarketShare (some [unknownBandRecord]) ["Unknown"]).bandTotals "Unknown"
      = 100 := by
  refine ⟨?_, ?_, ?_⟩
  · intro data f r hr
    have hk := (List.mem_filter.mp hr).2
    constructor
    · intro heq
      rw [dmKeep, if_pos (Or.inl heq)] at hk
      simp at hk
    · intro heq
      rw [dmKeep, if_pos (Or.inr heq)] at hk
      simp at hk
  · rw [show (aggregateByPremiumBandAndMonth (some [unknownBandRecord]) {}).totalsOverall
        = (0 : ℚ) + 100 from rfl]
    norm_num
  · rw [show (daCalculateMarketShare
          (some [unknownBandRecord]) ["Unknown"]).bandTotals "Unknown"
        = (0 : ℚ) + 100 from rfl]
    norm_num

/-- C1 witness: the amended theorem's filter clause applied to a concrete
record kept by a concrete filter. -/
theorem banned_bands_excluded_only_by_dm_filter_witness :
    ({ PremiumBand := some "0-20" } : Record).PremiumBand ≠ some "Unknown" ∧
    ({ PremiumBand := some "0-20" } : Record).PremiumBand ≠ some "-0.4--0.2" :=
  banned_bands_excluded_only_by_dm_filter.1 [{ PremiumBand := some "0-20" }] {}
    { PremiumBand := some "0-20" } (by decide)

/-! ## C6: band and month totals sum to the grand total -/

theorem map_congr_mem {α β : Type} (l : List α) (f g : α → β)
    (h : ∀ a ∈ l, f a = g a) : l.map f = l.map g := by
  induction l with
  | nil => rfl
  | cons x xs ih =>
    rw [List.map_cons, List.map_cons, h x (List.mem_cons_self x xs),
      ih (fun a ha => h a (List.mem_cons_of_mem _ ha))]

theorem listSum_upd1 {M : Type} [AddCommMonoid M] (l : List String) (hnd : l.Nodup)
    (k : String) (hk : k ∈ l) (f : String → M) (a : M) :
    (l.map (upd1 f k a)).sum = (l.map f).sum + a := by
  induction l with
  | nil => simp at hk
  | cons x xs ih =>
    have hx : x ∉ xs := (List.nodup_cons.mp hnd).1
    have hxs : xs.Nodup := (List.nodup_cons.mp hnd).2
    rcases List.mem_cons.mp hk with hkx | hkxs
    · subst hkx
      have hmap : xs.map (upd1 f k a) = xs.map f := by
        refine map_congr_mem _ _ _ (fun y hy => ?_)
        rw [upd1, if_neg]
        intro hyk
        exact hx (hyk ▸ hy)
      rw [List.map_cons, List.map_cons, List.sum_cons, List.sum_cons, hmap,
        upd1, if_pos rfl]
      abel
    · have hxk : ¬ x = k := fun hxx => hx (hxx ▸ hkxs)
      rw [List.map_cons, List.map_cons, List.sum_cons, List.sum_cons,
        ih hxs hkxs, upd1, if_neg hxk]
      abel

theorem aggBands_nodup (rs : List Record) (opts : AggOptions) :
    (aggBands rs opts).Nodup :=
  sortLe_nodup _ _ (dedupFirst_nodup _)

theorem aggMonths_nodup (rs : List Record) (opts : AggOptions) :
    (aggMonths rs opts).Nodup := by
  rcases hfd : opts.filterDateRange with _ | ⟨s, e⟩
  · rw [aggMonths, hfd]
    exact sortLe_nodup _ _ (dedupFirst_nodup _)
  · rw [aggMonths, hfd]
    exact getAllMonthsInRange_nodup s e

theorem aggHit_mem (bands months : List String) (r : Record) (b mk : String)
    (h : aggHit bands months r = some (b, mk)) : b ∈ bands ∧ mk ∈ months := by
  rw [aggHit] at h
  rcases hpb : (normalizeRecord r).PremiumBand with _ | b'
  · rw [hpb] at h
    simp at h
  · rw [hpb] at h
    by_cases hbm : b' = "" ∨ b' ∉ bands
    · simp only [if_pos hbm] at h
      simp at h
    · simp only [if_neg hbm] at h
      push_neg at hbm
      rcases hdd : r.DocumentDate with _ | d
      · rw [hdd] at h
        simp at h
      · rw [hdd] at h
        rcases d with _ | ⟨ts, y, m⟩
        · simp at h
        · by_cases hmk : monthKeyOf y m ∈ months
          · simp only [if_pos hmk] at h
            simp at h
            obtain ⟨hb, hm'⟩ := h
            subst hb
            subst hm'
            exact ⟨hbm.2, hmk⟩
          · simp only [if_neg hmk] at h
            simp at h

theorem aggStep_inv (bands months : List String) (hb : bands.Nodup)
    (hm : months.Nodup) (acc : AggAcc) (r : Record)
    (h : AggInv bands months acc) :
    AggInv bands months (aggStep bands months acc r) := by
  rw [aggStep]
  rcases hhit : aggHit bands months r with _ | ⟨b, mk⟩
  · exact h
  · obtain ⟨hbmem, hmkmem⟩ := aggHit_mem bands months r b mk hhit
    obtain ⟨h1, h2, h3, h4⟩ := h
    refine ⟨?_, ?_, ?_, ?_⟩
    · show (bands.map (upd1 acc.bandAmt b (loanAmountOf r))).sum
          = acc.ovAmt + loanAmountOf r
      rw [listSum_upd1 bands hb b hbmem acc.bandAmt (loanAmountOf r), h1]
    · show (months.map (upd1 acc.monAmt mk (loanAmountOf r))).sum
          = acc.ovAmt + loanAmountOf r
      rw [listSum_upd1 months hm mk hmkmem acc.monAmt (loanAmountOf r), h2]
    · show (bands.map (upd1 acc.bandCnt b 1)).sum = acc.ovCnt + 1
      rw [listSum_upd1 bands hb b hbmem acc.bandCnt 1, h3]
    · show (months.map (upd1 acc.monCnt mk 1)).sum = acc.ovCnt + 1
      rw [listSum_upd1 months hm mk hmkmem acc.monCnt 1, h4]

theorem aggFold_inv (bands months : List String) (hb : bands.Nodup)
    (hm : months.Nodup) (l : List Record) (acc : AggAcc)
    (h : AggInv bands months acc) :
    AggInv bands months (l.foldl (aggStep bands months) acc) := by
  induction l generalizing acc with
  | nil => exact h
  | cons r rest ih =>
    rw [List.foldl_cons]
    exact ih _ (aggStep_inv bands months hb hm acc r h)

theorem initAcc_inv (bands months : List String) : AggInv bands months initAcc := by
  refine ⟨?_, ?_, ?_, ?_⟩ <;> simp [initAcc, AggInv]

/-- C6: in every result of `aggregateByPremiumBandAndMonth`, the premium
band totals sum to the overall total, the month totals sum to the overall
total, and the same two identities hold for the record counts. -/
theorem aggregate_totals_consistent (data : Option (List Record)) (opts : AggOptions) :
    ((aggregateByPremiumBandAndMonth data opts).premiumBands.map
      (aggregateByPremiumBandAndMonth data opts).totalsByPremiumBand).sum
      = (aggregateByPremiumBandAndMonth data opts).totalsOverall ∧
    ((aggregateByPremiumBandAndMonth data opts).months.map
      (aggregateByPremiumBandAndMonth data opts).totalsByMonth).sum
      = (aggregateByPremiumBandAndMonth data opts).totalsOverall ∧
    ((aggregateByPremiumBandAndMonth data opts).premiumBands.map
      (aggregateByPremiumBandAndMonth data opts).countsByPremiumBand).sum
      = (aggregateByPremiumBandAndMonth data opts).countsOverall ∧
    ((aggregateByPremiumBandAndMonth data opts).months.map
      (aggregateByPremiumBandAndMonth data opts).countsByMonth).sum
      = (aggregateByPremiumBandAndMonth data opts).countsOverall := by
  rcases data with _ | rs
  · exact ⟨rfl, rfl, rfl, rfl⟩
  · rw [aggregateByPremiumBandAndMonth]
    by_cases hrs : rs = []
    · rw [if_pos hrs]
      exact ⟨rfl, rfl, rfl, rfl⟩
    · rw [if_neg hrs]
      have hinv := aggFold_inv (aggBands rs opts) (aggMonths rs opts)
        (aggBands_nodup rs opts) (aggMonths_nodup rs opts)
        (sampleData rs opts.sampleSize) initAcc
        (initAcc_inv (aggBands rs opts) (aggMonths rs opts))
      exact hinv

/-! ## C8: market-share bounds -/

theorem sampleData_subset (data : List Record) (n : ℕ) (r : Record)
    (h : r ∈ sampleData data n) : r ∈ data := by
  rw [sampleData] at h
  split at h
  · dsimp only at h
    split at h
    · rcases List.mem_append.mp (List.mem_of_mem_take h) with h' | h'
      · exact List.mem_of_mem_take h'
      · exact List.mem_of_mem_drop h'
    · rcases List.mem_append.mp h with h' | h'
      · exact List.mem_of_mem_take h'
      · exact List.mem_of_mem_drop h'
  · exact h

theorem aggStep_inv2 (bands months : List String) (hb : bands.Nodup)
    (acc : AggAcc) (r : Record) (hr : 0 ≤ loanAmountOf r)
    (h : AggInv2 bands acc) :
    AggInv2 bands (aggStep bands months acc r) := by
  rw [aggStep]
  rcases hhit : aggHit bands months r with _ | ⟨b, mk⟩
  · exact h
  · obtain ⟨hbmem, _⟩ := aggHit_mem bands months r b mk hhit
    obtain ⟨h1, h2⟩ := h
    constructor
    · intro b' m'
      show 0 ≤ upd2 acc.cellAmt b mk (loanAmountOf r) b' m'
      rw [upd2]
      split
      · exact add_nonneg (h1 b' m') hr
      · exact h1 b' m'
    · intro m
      show upd1 acc.monAmt mk (loanAmountOf r) m
          = (bands.map (fun b' => upd2 acc.cellAmt b mk (loanAmountOf r) b' m)).sum
      by_cases hm : m = mk
      · rw [hm]
        have hmap : bands.map (fun b' => upd2 acc.cellAmt b mk (loanAmountOf r) b' mk)
            = bands.map (upd1 (fun b' => acc.cellAmt b' mk) b (loanAmountOf r)) := by
          refine map_congr_mem _ _ _ (fun b' _ => ?_)
          rw [upd2, upd1]
          by_cases hbb : b' = b
          · rw [if_pos ⟨hbb, rfl⟩, if_pos hbb]
          · rw [if_neg (fun hc => hbb hc.1), if_neg hbb]
        rw [hmap, listSum_upd1 bands hb b hbmem _ (loanAmountOf r), upd1, if_pos rfl,
          h2 mk]
      · have hmap : bands.map (fun b' => upd2 acc.cellAmt b mk (loanAmountOf r) b' m)
            = bands.map (fun b' => acc.cellAmt b' m) := by
          refine map_congr_mem _ _ _ (fun b' _ => ?_)
          rw [upd2, if_neg (fun hc => hm hc.2)]
        rw [hmap, upd1, if_neg hm, h2 m]

theorem aggFold_inv2 (bands months : List String) (hb : bands.Nodup)
    (l : List Record) (acc : AggAcc) (hl : ∀ r ∈ l, 0 ≤ loanAmountOf r)
    (h : AggInv2 bands acc) :
    AggInv2 bands (l.foldl (aggStep bands months) acc) := by
  induction l generalizing acc with
  | nil => exact h
  | cons r rest ih =>
    rw [List.foldl_cons]
    exact ih _ (fun x hx => hl x (List.mem_cons_of_mem _ hx))
      (aggStep_inv2 bands months hb acc r (hl r (List.mem_cons_self _ _)) h)

theorem aggAccOf_inv2 (rs : List Record) (opts : AggOptions)
    (h : ∀ r ∈ rs, 0 ≤ loanAmountOf r) :
    AggInv2 (aggBands rs opts) (aggAccOf rs opts) := by
  rw [aggAccOf]
  refine aggFold_inv2 _ _ (aggBands_nodup rs opts) _ _
    (fun r hr => h r (sampleData_subset rs opts.sampleSize r hr)) ⟨?_, ?_⟩
  · intro b m
    exact le_refl 0
  · intro m
    show (0 : ℚ) = ((aggBands rs opts).map (fun _ => (0 : ℚ))).sum
    simp

/-- C8 counterexample: with a negative loan amount in the collection the
market-share metric escapes the 0–100 range: the month total is positive
(5) yet the `"20-40"` cell's share evaluates to 200 percent. -/
theorem market_share_exceeds_100_on_negative_loan :
    marketShareOf (aggregateByPremiumBandAndMonth (some [negLoanRecord, posLoanRecord]) {})
        "20-40" "2025-01" = 200 ∧
    (aggregateByPremiumBandAndMonth (some [negLoanRecord, posLoanRecord]) {}).totalsByMonth
        "2025-01" = 5 := by
  have hmon : (aggAccOf [negLoanRecord, posLoanRecord] {}).monAmt "2025-01"
      = (0 : ℚ) + -5 + 10 := rfl
  have hcell : (aggAccOf [negLoanRecord, posLoanRecord] {}).cellAmt "20-40" "2025-01"
      = (0 : ℚ) + 10 := rfl
  constructor
  · rw [show marketShareOf
        (aggregateByPremiumBandAndMonth (some [negLoanRecord, posLoanRecord]) {})
        "20-40" "2025-01"
      = (if 0 < (aggAccOf [negLoanRecord, posLoanRecord] {}).monAmt "2025-01" then
          (aggAccOf [negLoanRecord, posLoanRecord] {}).cellAmt "20-40" "2025-01"
            / (aggAccOf [negLoanRecord, posLoanRecord] {}).monAmt "2025-01" * 100
        else 0) from rfl]
    rw [hmon, hcell]
    norm_num
  · rw [show (aggregateByPremiumBandAndMonth
        (some [negLoanRecord, posLoanRecord]) {}).totalsByMonth "2025-01"
      = (aggAccOf [negLoanRecord, posLoanRecord] {}).monAmt "2025-01" from rfl]
    rw [hmon]
    norm_num

/-- C8 (amended): whenever every record's loan amount parses to a
nonnegative value (or fails to parse, contributing 0), the market-share
metric of every (band, month) cell lies in [0, 100] when that month's total
is strictly positive, and is 0 when the month total is 0; without the
nonnegativity assumption the bound fails (see the counterexample). -/
theorem market_share_bounded (rs : List Record) (opts : AggOptions) (b m : String)
    (hpos : ∀ r ∈ rs, 0 ≤ loanAmountOf r)
    (hb : b ∈ (aggregateByPremiumBandAndMonth (some rs) opts).premiumBands) :
    (0 < (aggregateByPremiumBandAndMonth (some rs) opts).totalsByMonth m →
      0 ≤ marketShareOf (aggregateByPremiumBandAndMonth (some rs) opts) b m ∧
      marketShareOf (aggregateByPremiumBandAndMonth (some rs) opts) b m ≤ 100) ∧
    ((aggregateByPremiumBandAndMonth (some rs) opts).totalsByMonth m = 0 →
      marketShareOf (aggregateByPremiumBandAndMonth (some rs) opts) b m = 0) := by
  rw [aggregateByPremiumBandAndMonth]
  by_cases hrs : rs = []
  · rw [if_pos hrs]
    exact ⟨fun h => absurd h (by norm_num [emptyAggResult]), fun _ => rfl⟩
  · rw [if_neg hrs]
    rw [aggregateByPremiumBandAndMonth, if_neg hrs] at hb
    obtain ⟨h1, h2⟩ := aggAccOf_inv2 rs opts hpos
    have hbmem : b ∈ aggBands rs opts := hb
    have hcell_le : (aggAccOf rs opts).cellAmt b m ≤ (aggAccOf rs opts).monAmt m := by
      rw [h2 m]
      refine List.single_le_sum (fun x hx => ?_) _ (List.mem_map_of_mem _ hbmem)
      rcases List.mem_map.mp hx with ⟨b', _, hb'⟩
      rw [← hb']
      exact h1 b' m
    by_cases hic : opts.includeCountMetrics
    · have hms : marketShareOf (aggregateCore rs opts) b m
          = if 0 < (aggAccOf rs opts).monAmt m then
              (aggAccOf rs opts).cellAmt b m / (aggAccOf rs opts).monAmt m * 100
            else 0 := by
        rw [marketShareOf, show (aggregateCore rs opts).marketShare
            = if opts.includeCountMetrics then
                some (fun b' m' =>
                  if 0 < (aggAccOf rs opts).monAmt m' then
                    (aggAccOf rs opts).cellAmt b' m' / (aggAccOf rs opts).monAmt m' * 100
                  else 0)
              else none from rfl, if_pos hic]
        rfl
      constructor
      · intro hpos'
        have hpos'' : 0 < (aggAccOf rs opts).monAmt m := hpos'
        rw [hms, if_pos hpos'']
        constructor
        · have : 0 ≤ (aggAccOf rs opts).cellAmt b m / (aggAccOf rs opts).monAmt m :=
            div_nonneg (h1 b m) (le_of_lt hpos'')
          nlinarith
        · have hdiv : (aggAccOf rs opts).cellAmt b m / (aggAccOf rs opts).monAmt m ≤ 1 :=
            (div_le_one hpos'').mpr hcell_le
          nlinarith
      · intro hz
        have hz' : (aggAccOf rs opts).monAmt m = 0 := hz
        rw [hms, hz']
        norm_num
    · have hms : marketShareOf (aggregateCore rs opts) b m = 0 := by
        rw [marketShareOf, show (aggregateCore rs opts).marketShare
            = if opts.includeCountMetrics then
                some (fun b' m' =>
                  if 0 < (aggAccOf rs opts).monAmt m' then
                    (aggAccOf rs opts).cellAmt b' m' / (aggAccOf rs opts).monAmt m' * 100
                  else 0)
              else none from rfl, if_neg hic]
        rfl
      rw [hms]
      exact ⟨fun _ => by norm_num, fun _ => rfl⟩

/-- C8 witness: the amended theorem applied to a one-record nonnegative
collection, with the month-total positivity hypothesis discharged. -/
theorem market_share_bounded_witness :
    0 ≤ marketShareOf (aggregateByPremiumBandAndMonth (some [posLoanRecord]) {})
        "20-40" "2025-01" ∧
    marketShareOf (aggregateByPremiumBandAndMonth (some [posLoanRecord]) {})
        "20-40" "2025-01" ≤ 100 :=
  (market_share_bounded [posLoanRecord] {} "20-40" "2025-01"
    (by
      intro r hr
      rw [List.mem_singleton] at hr
      rw [hr, show loanAmountOf posLoanRecord = (10 : ℚ) from rfl]
      norm_num)
    (by decide)).1
    (by
      rw [show (aggregateByPremiumBandAndMonth
            (some [posLoanRecord]) {}).totalsByMonth "2025-01"
          = (0 : ℚ) + 10 from rfl]
      norm_num)

/-! ## C9: the cross-tab accumulation -/

theorem msAmount_comb_zero (x : MSAmount) : x.comb ⟨0, 0⟩ = x := by
  rw [MSAmount.comb]
  cases x
  simp

theorem push_comb_sum (x : MSAmount) (r : Record) (l : List Record) :
    (x.push (loanAmountOf r)).comb (msSumOf l) = x.comb (msSumOf (r :: l)) := by
  rw [MSAmount.push, MSAmount.comb, msSumOf, msSumOf, MSAmount.comb,
    List.map_cons, List.sum_cons, List.length_cons]
  refine congrArg₂ MSAmount.mk ?_ ?_
  · show x.amount + loanAmountOf r + (l.map loanAmountOf).sum
        = x.amount + (loanAmountOf r + (l.map loanAmountOf).sum)
    ring
  · show x.count + 1 + l.length = x.count + (l.length + 1)
    omega

theorem msFold_generic (sel : List String) (p : String → String → LTVSeg → Prop)
    [inst : ∀ l b s, Decidable (p l b s)] (A : MSResult → MSAmount)
    (hsome : ∀ (acc : MSResult) (r : Record) (l b : String),
      msHit sel r = some (l, b) →
      A (msStep sel acc r) =
        if p l b (ltvSegmentOf r) then (A acc).push (loanAmountOf r) else A acc)
    (hnone : ∀ (acc : MSResult) (r : Record), msHit sel r = none →
      A (msStep sel acc r) = A acc) :
    ∀ (rs : List Record) (acc : MSResult),
      A (rs.foldl (msStep sel) acc) = (A acc).comb (msSumOf (msHitsWhere rs sel p)) := by
  intro rs
  induction rs with
  | nil =>
    intro acc
    rw [List.foldl_nil, show msHitsWhere [] sel p = [] from rfl,
      show msSumOf [] = ⟨0, 0⟩ from rfl, msAmount_comb_zero]
  | cons r rest ih =>
    intro acc
    rw [List.foldl_cons]
    rcases hh : msHit sel r with _ | ⟨l, b⟩
    · rw [ih (msStep sel acc r), hnone acc r hh]
      have hfl : msHitsWhere (r :: rest) sel p = msHitsWhere rest sel p := by
        rw [msHitsWhere, msHitsWhere, List.filter_cons]
        simp only [hh]
        rfl
      rw [hfl]
    · by_cases hp : p l b (ltvSegmentOf r)
      · have hfl : msHitsWhere (r :: rest) sel p = r :: msHitsWhere rest sel p := by
          rw [msHitsWhere, msHitsWhere, List.filter_cons]
          simp [hh, hp]
        rw [ih (msStep sel acc r), hsome acc r l b hh, if_pos hp, hfl, push_comb_sum]
      · have hfl : msHitsWhere (r :: rest) sel p = msHitsWhere rest sel p := by
          rw [msHitsWhere, msHitsWhere, List.filter_cons]
          simp [hh, hp]
        rw [ih (msStep sel acc r), hsome acc r l b hh, if_neg hp, hfl]

theorem msHit_empty_sel (r : Record) : msHit [] r = none := by
  rw [msHit]
  rcases r.BaseLender with _ | l <;> rcases r.PremiumBand with _ | b <;> simp

theorem msHitsWhere_empty (rs : List Record) (sel : List String)
    (p : String → String → LTVSeg → Prop) [∀ l' b' s', Decidable (p l' b' s')]
    (h : rs = [] ∨ sel = []) : msHitsWhere rs sel p = [] := by
  rcases h with h1 | h1
  · rw [h1]
    rfl
  · subst h1
    rw [msHitsWhere]
    refine List.filter_eq_nil.mpr (fun r _ => ?_)
    rw [msHit_empty_sel r]
    simp

theorem zero_comb (x : MSAmount) : MSAmount.comb ⟨0, 0⟩ x = x := by
  rw [MSAmount.comb]
  cases x
  simp

/-- C9 counterexample: a record without a lender whose band IS in the
selected set passes through the cross-tab untouched — its amount and count
reach none of the accumulators, although its segment classifies as
under-80. -/
theorem cross_tab_skips_lenderless_record :
    lenderlessRecord.PremiumBand = some "0-20" ∧
    ltvSegmentOf lenderlessRecord = .under80 ∧
    (msCalculateMarketShare (some [lenderlessRecord]) ["0-20"]).bandSeg "0-20" .under80
      = .zero ∧
    (msCalculateMarketShare (some [lenderlessRecord]) ["0-20"]).overallTotal = .zero := by
  exact ⟨rfl, rfl, rfl, rfl⟩

/-- C9 (amended): every record with a truthy lender and truthy band in the
selected set (records with an absent or empty lender are skipped) is
classified into exactly one LTV segment — under-80 exactly when its LTV
parses below 80, over-80 when the LTV is 80 or more or unparsable — and
contributes its loan amount and a count of one to the (lender, band,
segment), (band, segment) and overall segment accumulators, which
therefore equal the guarded filtered sums; a lender's render share within
a band/segment times that segment's total equals the lender's amount when
the total is positive, and the share is 0 otherwise. -/
theorem cross_tab_accumulation :
    (∀ r : Record, ltvSegmentOf r = .under80 ↔
      ∃ v : ℚ, jsParseFloatVal r.LTV = some v ∧ v < 80) ∧
    (∀ (rs : List Record) (sel : List String) (l b : String) (seg : LTVSeg),
      (msCalculateMarketShare (some rs) sel).lenderBandSeg l b seg
        = msSumOf (msHitsWhere rs sel (fun l' b' s' => l = l' ∧ b = b' ∧ seg = s')) ∧
      (msCalculateMarketShare (some rs) sel).bandSeg b seg
        = msSumOf (msHitsWhere rs sel (fun _ b' s' => b = b' ∧ seg = s')) ∧
      (msCalculateMarketShare (some rs) sel).overallSeg seg
        = msSumOf (msHitsWhere rs sel (fun _ _ s' => seg = s')) ∧
      (msCalculateMarketShare (some rs) sel).overallTotal
        = msSumOf (msHitsWhere rs sel (fun _ _ _ => True))) ∧
    (∀ (ms : MSResult) (l b : String) (seg : LTVSeg),
      (0 < (ms.bandSeg b seg).amount →
        renderBandSegShare ms l b seg * (ms.bandSeg b seg).amount
          = (ms.lenderBandSeg l b seg).amount) ∧
      (¬ 0 < (ms.bandSeg b seg).amount → renderBandSegShare ms l b seg = 0)) := by
  refine ⟨?_, ?_, ?_⟩
  · intro r
    rw [ltvSegmentOf]
    rcases hv : jsParseFloatVal r.LTV with _ | v
    · constructor
      · intro h
        exact absurd h (by simp)
      · rintro ⟨v, hv', _⟩
        exact Option.noConfusion hv'
    · by_cases hlt : v < 80
      · show (if v < 80 then LTVSeg.under80 else LTVSeg.over80) = LTVSeg.under80 ↔ _
        rw [if_pos hlt]
        exact ⟨fun _ => ⟨v, rfl, hlt⟩, fun _ => rfl⟩
      · show (if v < 80 then LTVSeg.under80 else LTVSeg.over80) = LTVSeg.under80 ↔ _
        rw [if_neg hlt]
        constructor
        · intro h
          exact absurd h (by decide)
        · rintro ⟨v', hv', hlt'⟩
          rw [Option.some_inj] at hv'
          rw [← hv'] at hlt'
          exact absurd hlt' hlt
  · intro rs sel l b seg
    rw [msCalculateMarketShare]
    by_cases hcase : rs = [] ∨ sel = []
    · rw [if_pos hcase]
      rw [msHitsWhere_empty rs sel _ hcase, msHitsWhere_empty rs sel _ hcase,
        msHitsWhere_empty rs sel _ hcase, msHitsWhere_empty rs sel _ hcase]
      exact ⟨rfl, rfl, rfl, rfl⟩
    · rw [if_neg hcase]
      have hs₁ : ∀ (acc : MSResult) (r : Record) (l' b' : String),
          msHit sel r = some (l', b') →
          (msStep sel acc r).lenderBandSeg l b seg =
            if l = l' ∧ b = b' ∧ seg = ltvSegmentOf r then
              (acc.lenderBandSeg l b seg).push (loanAmountOf r)
            else acc.lenderBandSeg l b seg := by
        intro acc r l' b' hh
        rw [msStep, hh]
      have hs₂ : ∀ (acc : MSResult) (r : Record) (l' b' : String),
          msHit sel r = some (l', b') →
          (msStep sel acc r).bandSeg b seg =
            if b = b' ∧ seg = ltvSegmentOf r then
              (acc.bandSeg b seg).push (loanAmountOf r)
            else acc.bandSeg b seg := by
        intro acc r l' b' hh
        rw [msStep, hh]
      have hs₃ : ∀ (acc : MSResult) (r : Record) (l' b' : String),
          msHit sel r = some (l', b') →
          (msStep sel acc r).overallSeg seg =
            if seg = ltvSegmentOf r then
              (acc.overallSeg seg).push (loanAmountOf r)
            else acc.overallSeg seg := by
        intro acc r l' b' hh
        rw [msStep, hh]
      have hs₄ : ∀ (acc : MSResult) (r : Record) (l' b' : String),
          msHit sel r = some (l', b') →
          (msStep sel acc r).overallTotal =
            if True then (acc.overallTotal).push (loanAmountOf r)
            else acc.overallTotal := by
        intro acc r l' b' hh
        rw [msStep, hh, if_pos trivial]
      have hn : ∀ (acc : MSResult) (r : Record), msHit sel r = none →
          msStep sel acc r = acc := by
        intro acc r hh
        rw [msStep, hh]
      refine ⟨?_, ?_, ?_, ?_⟩
      · show (rs.foldl (msStep sel) (msEmpty sel)).lenderBandSeg l b seg = _
        rw [msFold_generic sel (fun l' b' s' => l = l' ∧ b = b' ∧ seg = s')
          (fun ms => ms.lenderBandSeg l b seg) hs₁
          (fun acc r hh => by rw [hn acc r hh]) rs (msEmpty sel)]
        rw [show (msEmpty sel).lenderBandSeg l b seg = (⟨0, 0⟩ : MSAmount) from rfl,
          zero_comb]
      · show (rs.foldl (msStep sel) (msEmpty sel)).bandSeg b seg = _
        rw [msFold_generic sel (fun _ b' s' => b = b' ∧ seg = s')
          (fun ms => ms.bandSeg b seg) hs₂
          (fun acc r hh => by rw [hn acc r hh]) rs (msEmpty sel)]
        rw [show (msEmpty sel).bandSeg b seg = (⟨0, 0⟩ : MSAmount) from rfl, zero_comb]
      · show (rs.foldl (msStep sel) (msEmpty sel)).overallSeg seg = _
        rw [msFold_generic sel (fun _ _ s' => seg = s')
          (fun ms => ms.overallSeg seg) hs₃
          (fun acc r hh => by rw [hn acc r hh]) rs (msEmpty sel)]
        rw [show (msEmpty sel).overallSeg seg = (⟨0, 0⟩ : MSAmount) from rfl, zero_comb]
      · show (rs.foldl (msStep sel) (msEmpty sel)).overallTotal = _
        rw [msFold_generic sel (fun _ _ _ => True)
          (fun ms => ms.overallTotal) hs₄
          (fun acc r hh => by rw [hn acc r hh]) rs (msEmpty sel)]
        rw [show (msEmpty sel).overallTotal = (⟨0, 0⟩ : MSAmount) from rfl, zero_comb]
  · intro ms l b seg
    constructor
    · intro hpos
      rw [renderBandSegShare, if_pos hpos]
      exact div_mul_cancel₀ _ (ne_of_gt hpos)
    · intro hneg
      rw [renderBandSegShare, if_neg hneg]

/-- C9 witness: the amended theorem applied to a one-record collection
with a lender, including the share identity with its positivity hypothesis
discharged. -/
theorem cross_tab_accumulation_witness :
    (msCalculateMarketShare (some [lenderedRecord]) ["0-20"]).bandSeg "0-20"
        LTVSeg.under80
      = msSumOf (msHitsWhere [lenderedRecord] ["0-20"]
          (fun _ b' s' => "0-20" = b' ∧ LTVSeg.under80 = s')) ∧
    renderBandSegShare (msCalculateMarketShare (some [lenderedRecord]) ["0-20"])
        "L" "0-20" LTVSeg.under80
      * ((msCalculateMarketShare (some [lenderedRecord]) ["0-20"]).bandSeg
          "0-20" LTVSeg.under80).amount
      = ((msCalculateMarketShare (some [lenderedRecord]) ["0-20"]).lenderBandSeg
          "L" "0-20" LTVSeg.under80).amount :=
  ⟨(cross_tab_accumulation.2.1 [lenderedRecord] ["0-20"] "L" "0-20" LTVSeg.under80).2.1,
   (cross_tab_accumulation.2.2 (msCalculateMarketShare (some [lenderedRecord]) ["0-20"])
      "L" "0-20" LTVSeg.under80).1 (by
        rw [show ((msCalculateMarketShare (some [lenderedRecord]) ["0-20"]).bandSeg
            "0-20" LTVSeg.under80).amount = (0 : ℚ) + 100 from rfl]
        norm_num)⟩

/-! ## C7: idempotence of `standardizePremiumBand` -/

theorem mem_of_mem_dropWhile {α : Type} (p : α → Bool) (l : List α) (c : α)
    (h : c ∈ l.dropWhile p) : c ∈ l := by
  induction l with
  | nil => simpa using h
  | cons a t ih =>
    rw [List.dropWhile_cons] at h
    split at h
    · exact List.mem_cons_of_mem _ (ih h)
    · exact h

theorem mem_of_mem_takeWhile {α : Type} (p : α → Bool) (l : List α) (c : α)
    (h : c ∈ l.takeWhile p) : c ∈ l := by
  induction l with
  | nil => simpa using h
  | cons a t ih =>
    rw [List.takeWhile_cons] at h
    split at h
    · rcases List.mem_cons.mp h with h' | h'
      · exact h' ▸ List.mem_cons_self _ _
      · exact List.mem_cons_of_mem _ (ih h')
    · simp at h

theorem takeWhile_all {α : Type} (p : α → Bool) (l : List α)
    (h : ∀ c ∈ l, p c = true) : l.takeWhile p = l := by
  induction l with
  | nil => rfl
  | cons a t ih =>
    rw [List.takeWhile_cons, if_pos (h a (List.mem_cons_self _ _)),
      ih (fun c hc => h c (List.mem_cons_of_mem _ hc))]

theorem dropWhile_all {α : Type} (p : α → Bool) (l : List α)
    (h : ∀ c ∈ l, p c = true) : l.dropWhile p = [] := by
  induction l with
  | nil => rfl
  | cons a t ih =>
    rw [List.dropWhile_cons, if_pos (h a (List.mem_cons_self _ _)),
      ih (fun c hc => h c (List.mem_cons_of_mem _ hc))]

theorem isDigit_not_isWS (c : Char) (h : c.isDigit = true) : isWS c = false := by
  rw [isWS]
  by_contra hws
  rw [Bool.not_eq_false, decide_eq_true_iff] at hws
  rcases hws with h' | h' | h' | h' <;> rw [h'] at h <;> simp at h

theorem isDigit_ne_dash (c : Char) (h : c.isDigit = true) : c ≠ '-' := by
  intro h'
  rw [h'] at h
  simp at h

theorem isDigit_ne_dot (c : Char) (h : c.isDigit = true) : c ≠ '.' := by
  intro h'
  rw [h'] at h
  simp at h

theorem takeSign_digit (c : Char) (t : List Char) (h : c.isDigit = true) :
    takeSign (c :: t) = (1, c :: t) := by
  rw [takeSign.eq_def]
  split
  · rename_i heq
    rw [List.cons.injEq] at heq
    exact absurd heq.1 (isDigit_ne_dash c h)
  · rename_i heq
    rw [List.cons.injEq] at heq
    have : c ≠ '+' := by
      intro h'
      rw [h'] at h
      simp at h
    exact absurd heq.1 this
  · rfl

theorem jsParseFloatList_digits (l : List Char) (hne : l ≠ [])
    (hd : ∀ c ∈ l, c.isDigit = true) :
    jsParseFloatList l = some ((digitsVal l : ℚ)) := by
  rcases l with _ | ⟨c, t⟩
  · exact absurd rfl hne
  · have hdw : (c :: t).dropWhile isWS = c :: t := by
      rw [List.dropWhile_cons,
        if_neg (by rw [isDigit_not_isWS c (hd c (List.mem_cons_self _ _))]; simp)]
    have htake : (c :: t).takeWhile Char.isDigit = c :: t := takeWhile_all _ _ hd
    have hdrop : (c :: t).dropWhile Char.isDigit = [] := dropWhile_all _ _ hd
    simp only [jsParseFloatList, hdw,
      takeSign_digit c t (hd c (List.mem_cons_self _ _)), htake, hdrop]
    rw [if_neg (by simp)]
    have hfv : fracVal [] = 0 := by
      rw [fracVal, show digitsVal [] = 0 from rfl]
      norm_num
    rw [hfv]
    norm_num

theorem splitOnChar_pieces_no_sep (c : Char) (l : List Char) (piece : List Char)
    (h : piece ∈ splitOnChar c l) : c ∉ piece := by
  induction l generalizing piece with
  | nil =>
    rw [splitOnChar] at h
    rcases List.mem_singleton.mp h with rfl | _
    simp
  | cons a t ih =>
    rw [splitOnChar] at h
    split at h
    · rcases List.mem_cons.mp h with h' | h'
      · rw [h']
        simp
      · exact ih piece h'
    · rename_i ha
      rcases hsp : splitOnChar c t with _ | ⟨p, ps⟩
      · rw [hsp] at h
        rcases List.mem_singleton.mp h with rfl
        intro hc
        rcases List.mem_singleton.mp hc with rfl
        exact ha rfl
      · rw [hsp] at h
        rcases List.mem_cons.mp h with h' | h'
        · rw [h']
          intro hc
          rcases List.mem_cons.mp hc with rfl | hc'
          · exact ha rfl
          · exact ih p (by rw [hsp]; exact List.mem_cons_self _ _) hc'
        · exact ih piece (by rw [hsp]; exact List.mem_cons_of_mem _ h')

theorem jsSplit_pieces_no_dash (s p : String) (h : p ∈ jsSplit '-' s) :
    '-' ∉ p.data := by
  rw [jsSplit] at h
  rcases List.mem_map.mp h with ⟨piece, hpiece, hmk⟩
  have := splitOnChar_pieces_no_sep '-' s.data piece hpiece
  rw [← hmk]
  exact this

theorem jsParseFloatList_nonneg (l : List Char) (q : ℚ) (hnd : '-' ∉ l)
    (h : jsParseFloatList l = some q) : 0 ≤ q := by
  rw [jsParseFloatList] at h
  have hnd' : '-' ∉ l.dropWhile isWS := fun hc => hnd (mem_of_mem_dropWhile _ _ _ hc)
  have hsign : (takeSign (l.dropWhile isWS)).1 = 1 := by
    rw [takeSign.eq_def]
    split
    · rename_i heq
      exact absurd (heq ▸ List.mem_cons_self '-' _) hnd'
    · rfl
    · rfl
  split at h
  · exact Option.noConfusion h
  · rw [Option.some_inj] at h
    rw [← h, hsign, one_mul]
    have h1 : (0 : ℚ) ≤ (digitsVal ((takeSign (l.dropWhile isWS)).2.takeWhile Char.isDigit) : ℚ) := by
      positivity
    have h2 : (0 : ℚ) ≤ fracVal
        (match (takeSign (l.dropWhile isWS)).2.dropWhile Char.isDigit with
          | '.' :: t => t.takeWhile Char.isDigit
          | _ => []) := by
      rw [fracVal]
      positivity
    linarith

theorem jsRound_nonneg (q : ℚ) (h : 0 ≤ q) : 0 ≤ jsRound q := by
  rw [jsRound, Int.le_floor]
  push_cast
  linarith

theorem jsContainsChar_iff (c : Char) (s : String) :
    jsContainsChar c s = true ↔ c ∈ s.data := by
  rw [jsContainsChar]
  exact List.elem_iff

theorem jsTrim_mem (c : Char) (s : String) (h : c ∈ (jsTrim s).data) :
    c ∈ s.data := by
  rw [jsTrim] at h
  have h1 : c ∈ ((s.data.dropWhile isWS).reverse.dropWhile isWS).reverse := h
  rw [List.mem_reverse] at h1
  have h2 := mem_of_mem_dropWhile _ _ _ h1
  rw [List.mem_reverse] at h2
  exact mem_of_mem_dropWhile _ _ _ h2

theorem concat_data (a b : String) :
    (a ++ "-" ++ b).data = a.data ++ '-' :: b.data := by
  rw [string_data_append, string_data_append, show "-".data = ['-'] by rfl]
  simp

theorem standardize_fixed_nonneg_pair (A B : ℤ) (hA : 0 ≤ A) (hB : 0 ≤ B) :
    standardizePremiumBand (intToStr A ++ "-" ++ intToStr B)
      = intToStr A ++ "-" ++ intToStr B := by
  have hAd : ∀ c ∈ (intToStr A).data, c.isDigit = true := intToStr_all_digits A hA
  have hBd : ∀ c ∈ (intToStr B).data, c.isDigit = true := intToStr_all_digits B hB
  have hAnd : '-' ∉ (intToStr A).data :=
    fun hc => absurd rfl (isDigit_ne_dash '-' (hAd '-' hc))
  have hBnd : '-' ∉ (intToStr B).data :=
    fun hc => absurd rfl (isDigit_ne_dash '-' (hBd '-' hc))
  have hAne : (intToStr A).data ≠ [] := by
    rw [intToStr_nonneg A hA]
    exact natToStr_ne_nil _
  have hBne : (intToStr B).data ≠ [] := by
    rw [intToStr_nonneg B hB]
    exact natToStr_ne_nil _
  have h1 : ¬ (intToStr A ++ "-" ++ intToStr B = "" ∨
      intToStr A ++ "-" ++ intToStr B = "Unknown") := by
    rintro (h | h)
    · exact concat_dash_ne_empty _ _ h
    · have hd := dash_mem_concat (intToStr A) (intToStr B)
      rw [h] at hd
      exact absurd hd (by decide)
  have hdot : '.' ∉ (intToStr A ++ "-" ++ intToStr B).data := by
    rw [concat_data]
    intro hc
    rcases List.mem_append.mp hc with hc' | hc'
    · exact absurd rfl (isDigit_ne_dot '.' (hAd '.' hc'))
    · rcases List.mem_cons.mp hc' with hc'' | hc''
      · exact absurd hc'' (by decide)
      · exact absurd rfl (isDigit_ne_dot '.' (hBd '.' hc''))
  have h2 : intToStr A ++ "-" ++ intToStr B ≠ "-0.2-0.0" := by
    intro h
    apply hdot
    rw [h]
    decide
  have h3 : jsContainsChar '-' (intToStr A ++ "-" ++ intToStr B) = true :=
    (jsContainsChar_iff _ _).mpr (dash_mem_concat _ _)
  have hpA : jsParseFloat (intToStr A) = some ((digitsVal (intToStr A).data : ℚ)) :=
    jsParseFloatList_digits _ hAne hAd
  have hpB : jsParseFloat (intToStr B) = some ((digitsVal (intToStr B).data : ℚ)) :=
    jsParseFloatList_digits _ hBne hBd
  have hnodotA : jsContainsChar '.' (jsTrim (intToStr A)) ≠ true := by
    intro hc
    have := jsTrim_mem '.' (intToStr A) ((jsContainsChar_iff _ _).mp hc)
    exact absurd rfl (isDigit_ne_dot '.' (hAd '.' this))
  have hnodotB : jsContainsChar '.' (jsTrim (intToStr B)) ≠ true := by
    intro hc
    have := jsTrim_mem '.' (intToStr B) ((jsContainsChar_iff _ _).mp hc)
    exact absurd rfl (isDigit_ne_dot '.' (hBd '.' this))
  have hsmallA : ¬ (((digitsVal (intToStr A).data : ℚ)) ≠ 0 ∧
      |((digitsVal (intToStr A).data : ℚ))| < 1) := by
    rintro ⟨hne, hlt⟩
    rw [abs_of_nonneg (by positivity)] at hlt
    have h0 : digitsVal (intToStr A).data < 1 := by exact_mod_cast hlt
    apply hne
    have h00 : digitsVal (intToStr A).data = 0 := by omega
    rw [h00]
    norm_num
  have hsmallB : ¬ (((digitsVal (intToStr B).data : ℚ)) ≠ 0 ∧
      |((digitsVal (intToStr B).data : ℚ))| < 1) := by
    rintro ⟨hne, hlt⟩
    rw [abs_of_nonneg (by positivity)] at hlt
    have h0 : digitsVal (intToStr B).data < 1 := by exact_mod_cast hlt
    apply hne
    have h00 : digitsVal (intToStr B).data = 0 := by omega
    rw [h00]
    norm_num
  rw [standardizePremiumBand, if_neg h1, if_neg h2, if_pos h3,
    jsSplit_sep _ _ hAnd hBnd]
  simp only [hpA, hpB]
  by_cases hc1 : (-1 < ((digitsVal (intToStr A).data : ℚ)) ∧
      ((digitsVal (intToStr A).data : ℚ)) < 1) ∨
      (-1 < ((digitsVal (intToStr B).data : ℚ)) ∧
      ((digitsVal (intToStr B).data : ℚ)) < 1)
  · rw [if_pos hc1, if_neg]
    rintro (hc | hc | hc | hc)
    · exact hnodotA hc
    · exact hnodotB hc
    · exact hsmallA hc
    · exact hsmallB hc
  · rw [if_neg hc1]

theorem standardize_cases (s : String) :
    standardizePremiumBand s = s ∨ standardizePremiumBand s = "-20-0" ∨
    ∃ A B : ℤ, 0 ≤ A ∧ 0 ≤ B ∧
      standardizePremiumBand s = intToStr A ++ "-" ++ intToStr B := by
  rw [standardizePremiumBand]
  by_cases h1 : s = "" ∨ s = "Unknown"
  · rw [if_pos h1]
    exact Or.inl (by trivial)
  · rw [if_neg h1]
    by_cases h2 : s = "-0.2-0.0"
    · rw [if_pos h2]
      exact Or.inr (Or.inl rfl)
    · rw [if_neg h2]
      by_cases h3 : jsContainsChar '-' s = true
      · rw [if_pos h3]
        rcases hsp : jsSplit '-' s with _ | ⟨p₁, _ | ⟨p₂, _ | ⟨p₃, rest⟩⟩⟩ <;>
          simp only [hsp]
        · exact Or.inl (by trivial)
        · exact Or.inl (by trivial)
        · rcases hf₁ : jsParseFloat p₁ with _ | mn <;>
            rcases hf₂ : jsParseFloat p₂ with _ | mx <;> simp only [hf₁, hf₂]
          · exact Or.inl (by trivial)
          · exact Or.inl (by trivial)
          · exact Or.inl (by trivial)
          · by_cases hc1 : (-1 < mn ∧ mn < 1) ∨ (-1 < mx ∧ mx < 1)
            · rw [if_pos hc1]
              by_cases hc2 : jsContainsChar '.' (jsTrim p₁) = true ∨
                  jsContainsChar '.' (jsTrim p₂) = true ∨
                  (mn ≠ 0 ∧ |mn| < 1) ∨ (mx ≠ 0 ∧ |mx| < 1)
              · rw [if_pos hc2]
                have hmn : 0 ≤ mn := by
                  refine jsParseFloatList_nonneg p₁.data mn ?_ hf₁
                  refine jsSplit_pieces_no_dash s p₁ ?_
                  rw [hsp]
                  exact List.mem_cons_self _ _
                have hmx : 0 ≤ mx := by
                  refine jsParseFloatList_nonneg p₂.data mx ?_ hf₂
                  refine jsSplit_pieces_no_dash s p₂ ?_
                  rw [hsp]
                  exact List.mem_cons_of_mem _ (List.mem_cons_self _ _)
                refine Or.inr (Or.inr ⟨jsRound (mn * 100), jsRound (mx * 100),
                  jsRound_nonneg _ (by positivity), jsRound_nonneg _ (by positivity),
                  rfl⟩)
              · rw [if_neg hc2]
                exact Or.inl (by trivial)
            · rw [if_neg hc1]
              exact Or.inl (by trivial)
        · exact Or.inl (by trivial)
      · rw [if_neg h3]
        exact Or.inl (by trivial)

/-- C7: `standardizePremiumBand` is idempotent — applying it a second time
returns the first application's result unchanged: labels it leaves alone
stay fixed, the hard-coded `"-20-0"` is not reconverted, and a freshly
converted label (two nonnegative integer basis-point bounds) passes the
decimal-detection heuristic untouched. -/
theorem standardize_premium_band_idempotent (s : String) :
    standardizePremiumBand (standardizePremiumBand s) = standardizePremiumBand s := by
  rcases standardize_cases s with h | h | ⟨A, B, hA, hB, h⟩
  · rw [h]
    exact h
  · rw [h]
    rfl
  · rw [h]
    exact standardize_fixed_nonneg_pair A B hA hB

end MBPrice
